import Mathlib

/-!
Verification of the faceting core of miratope-rust.

The definitions below are a shallow embedding of the Rust sources
`miratope-core/src/conc/faceting.rs` and `miratope-core/src/group/gen_iter.rs`.
Machine integers (`usize`) are modelled as `Nat` (none of the arithmetic here
comes near overflow), `Vec` as `List`, mutation as functional state passing.
Constructs from the crate's `abs` module (`Element`, `Ranks`, `Abstract::dyad`,
`Ranks::is_dyadic`), whose sources are not part of this tree, are modelled from
the specification; every such definition is marked in its doc comment.
-/

namespace Miratope

/-- Model of `abs::Element` as used by the faceting algorithm: a list of
subelement indices into the rank below and a list of superelement indices into
the rank above.  Modelled from the spec: "element at rank r holds subelement
indices into rank r−1". -/
structure Element where
  subs : List Nat
  sups : List Nat
deriving DecidableEq, Repr

/-- Model of `abs::Ranks`: per-rank element lists. -/
abbrev Ranks := List (List Element)

/-! ## C5: the rank guard at the top of `Concrete::faceting` -/

/-- Control-flow skeleton of the entry of `Concrete::faceting`
(faceting.rs:1112-1118): a polytope of rank less than 4 is rejected up front
and the function returns an empty vector; otherwise the enumeration
(abstracted as `compute`, everything from line 1120 on) runs. -/
def faceting_rank_guard {α : Type} (rank : Nat) (compute : Unit → List α) : List α :=
  if rank < 4 then [] else compute ()

/-- C5: for every call with rank below the minimum supported rank (4), the
call returns the empty result vector regardless of the rest of the
computation; the enumeration `compute` is never consulted. -/
theorem faceting_low_rank_rejected {α : Type} (rank : Nat) (h : rank < 4)
    (compute : Unit → List α) : faceting_rank_guard rank compute = [] := by
  unfold faceting_rank_guard
  simp [h]

/-- Witness for C5: rank 3 with a nonempty would-be enumeration yields []. -/
theorem faceting_low_rank_rejected_witness :
    3 < 4 ∧ faceting_rank_guard 3 (fun _ => [0]) = [] :=
  ⟨by decide, faceting_low_rank_rejected 3 (by decide) (fun _ => [0])⟩

/-! ## C3: ridge multiplicity arithmetic (faceting.rs:1771-1795 and 692-716) -/

/-- Ridge multiplicity of a candidate facet at one of its ridges,
`f_count * ridge_count / total_ridge_count` (faceting.rs:1783 and 704).
Integer (truncating) division, exactly as in the source. -/
def ridge_mul (f_count ridge_count total_ridge_count : Nat) : Nat :=
  f_count * ridge_count / total_ridge_count

/-- The orbit index a local ridge index `(i, j)` of a facet resolves to,
`ridge_idx_orbits[hp][ridge_idx.0][ridge_idx.1]` (faceting.rs:1780). -/
def ridge_orbit_of (ridge_idx_orbits_hp : List (List Nat)) (ij : Nat × Nat) : Nat :=
  (ridge_idx_orbits_hp.getD ij.1 []).getD ij.2 0

/-- One row of the ridge-multiplicity table: for a fixed candidate facet the
source folds over its local ridge list `ridge_idxs_local`, looks up the ridge
orbit and the counts, and writes `mul` at the orbit index of a vector that
starts as `vec![0; ridge_counts.len()]` (faceting.rs:1774-1790). -/
def ridge_muls_facet (ridge_idxs_local : List (Nat × Nat))
    (ridge_idx_orbits_hp : List (List Nat)) (ff_counts_hp : List Nat)
    (f_count : Nat) (ridge_counts : List Nat) : List Nat :=
  ridge_idxs_local.foldl
    (fun acc ridge_idx =>
      let ridge_orbit := ridge_orbit_of ridge_idx_orbits_hp ridge_idx
      let ridge_count := ff_counts_hp.getD ridge_idx.1 0
      let total_ridge_count := ridge_counts.getD ridge_orbit 0
      acc.set ridge_orbit (ridge_mul f_count ridge_count total_ridge_count))
    (List.replicate ridge_counts.length 0)

/-- Generic fact about index-overwrite folds: any entry of the result either
kept its initial value or was last written by some list element mapping to it. -/
theorem foldl_set_getD {β : Type} (orb : β → Nat) (f : β → Nat) :
    ∀ (l : List β) (acc : List Nat) (o : Nat),
      (l.foldl (fun a p => a.set (orb p) (f p)) acc).getD o 0 = acc.getD o 0 ∨
      ∃ p ∈ l, orb p = o ∧ (l.foldl (fun a p => a.set (orb p) (f p)) acc).getD o 0 = f p := by
  intro l
  induction l with
  | nil => intro acc o; exact Or.inl rfl
  | cons hd tl ih =>
      intro acc o
      rw [List.foldl_cons]
      rcases ih (acc.set (orb hd) (f hd)) o with h | ⟨p, hp, hpo, hv⟩
      · by_cases ho : orb hd = o
        · by_cases hlen : o < acc.length
          · right
            refine ⟨hd, List.mem_cons_self hd tl, ho, ?_⟩
            subst ho
            rw [h, List.getD_eq_getElem?_getD, List.getElem?_set_self hlen]
            rfl
          · left
            rw [h, List.set_eq_of_length_le (by omega)]
        · left
          rw [h, List.getD_eq_getElem?_getD, List.getElem?_set_ne ho,
            ← List.getD_eq_getElem?_getD]
      · exact Or.inr ⟨p, List.mem_cons_of_mem hd hp, hpo, hv⟩

/-- C3 counterexample: with one facet orbit of size 1 having a single local
ridge whose orbit counts 2 ridges in total, the quotient 1·1/2 is not integral;
the combiner records the truncated value 0 and no error of any kind occurs
(the computation is total and succeeds). -/
theorem ridge_mul_truncates_counterexample :
    ridge_muls_facet [(0, 0)] [[0]] [1] 1 [2] = [0] ∧
    ¬ (2 ∣ 1 * 1) ∧ ridge_mul 1 1 2 * 2 ≠ 1 * 1 := by
  decide

/-- C3 (amended): the ridge multiplicity recorded by the combiner is the
truncating integer quotient `f_count * ridge_count / total_ridge_count`; when
the divisibility holds this is the exact quotient, and otherwise the value is
silently truncated (no internal-consistency abort exists); every entry of the
per-facet multiplicity row is either untouched (0) or such a quotient. -/
theorem ridge_mul_floor_formula :
    (∀ f r t : Nat, t ∣ f * r → ridge_mul f r t * t = f * r) ∧
    (∀ (rio : List (List Nat)) (ff : List Nat) (f_count : Nat)
       (rc : List Nat) (l : List (Nat × Nat)) (o : Nat),
      (ridge_muls_facet l rio ff f_count rc).getD o 0 = 0 ∨
      ∃ ij ∈ l, ridge_orbit_of rio ij = o ∧
        (ridge_muls_facet l rio ff f_count rc).getD o 0 =
          ridge_mul f_count (ff.getD ij.1 0) (rc.getD o 0)) := by
  constructor
  · intro f r t h
    exact Nat.div_mul_cancel h
  · intro rio ff f_count rc l o
    have base : (List.replicate rc.length (0 : Nat)).getD o 0 = 0 := by
      rw [List.getD_eq_getElem?_getD, List.getElem?_replicate]
      by_cases h : o < rc.length <;> simp [h]
    rcases foldl_set_getD (fun p => ridge_orbit_of rio p)
        (fun p => ridge_mul f_count (ff.getD p.1 0)
          (rc.getD (ridge_orbit_of rio p) 0)) l (List.replicate rc.length 0) o with
      h | ⟨p, hp, hpo, hv⟩
    · left
      rw [ridge_muls_facet]
      exact h.trans base
    · right
      refine ⟨p, hp, hpo, ?_⟩
      rw [ridge_muls_facet]
      rw [hv, hpo]

/-- Witness for the amended C3: 6 divides 2·3 and the recorded multiplicity is
exact there; and the entry characterization evaluated at a concrete row. -/
theorem ridge_mul_floor_formula_witness :
    ridge_mul 2 3 6 * 6 = 2 * 3 ∧
    ((ridge_muls_facet [(0, 0)] [[0]] [1] 1 [2]).getD 0 0 = 0 ∨
      ∃ ij ∈ [((0 : Nat), (0 : Nat))], ridge_orbit_of [[0]] ij = 0 ∧
        (ridge_muls_facet [(0, 0)] [[0]] [1] 1 [2]).getD 0 0 =
          ridge_mul 1 ([1].getD ij.1 0) ([2].getD 0 0)) :=
  ⟨ridge_mul_floor_formula.1 2 3 6 (by decide),
   ridge_mul_floor_formula.2 [[0]] [1] 1 [2] [(0, 0)] 0⟩

/-! ## C1: classification of a popped facet combination (faceting.rs:1824-1899) -/

/-- Folding the newly added facet's per-orbit multiplicities into the running
vector, with the source's early exit (`break 'a`) as soon as an orbit exceeds
2 (faceting.rs:1828-1843).  Each list entry is a pair (ridge orbit, mul). -/
def add_ridge_muls_break (muls : List Nat) : List (Nat × Nat) → List Nat
  | [] => muls
  | (orbit, mul) :: rest =>
      let muls2 := muls.set orbit (muls.getD orbit 0 + mul)
      if 2 < muls2.getD orbit 0 then muls2 else add_ridge_muls_break muls2 rest

/-- The same fold without the early exit (the value the vector would reach if
every contribution of the facet were applied). -/
def add_ridge_muls (muls : List Nat) (l : List (Nat × Nat)) : List Nat :=
  l.foldl (fun m p => m.set p.1 (m.getD p.1 0 + p.2)) muls

/-- The contributions of facet `(hp, f)`: for each local ridge index the pair
of its ridge orbit and the tabulated multiplicity
`ridge_muls[hp][f][ridge_orbit]` (faceting.rs:1832-1837). -/
def facet_contribs (ridge_idxs_local : List (Nat × Nat))
    (ridge_idx_orbits_hp : List (List Nat)) (ridge_muls_hp_f : List Nat) :
    List (Nat × Nat) :=
  ridge_idxs_local.map (fun ij =>
    let orbit := ridge_orbit_of ridge_idx_orbits_hp ij
    (orbit, ridge_muls_hp_f.getD orbit 0))

/-- The classification loop over the updated vector (faceting.rs:1844-1853):
`valid` starts at 0, flips to 1 (with a break) at the first entry above 2, and
to 2 at an entry equal to 1. -/
def classify_loop : Nat → List Nat → Nat
  | valid, [] => valid
  | valid, r :: rest =>
      if 2 < r then 1 else if r = 1 then classify_loop 2 rest else classify_loop valid rest

/-- Classification of a popped combination's multiplicity vector:
0 = valid, 1 = exotic, 2 = incomplete. -/
def classify_muls (muls : List Nat) : Nat := classify_loop 0 muls

/-- The dispatch on the classification (the `match valid` at faceting.rs:1854):
arm 0 emits the combination as an accepted faceting, arm 1 discards it as a
dead branch, arm 2 extends it. -/
inductive PopAction
  | emit
  | dead
  | extend
deriving DecidableEq, Repr

/-- Action taken for a popped combination whose updated multiplicity vector is
`muls`. -/
def pop_action (muls : List Nat) : PopAction :=
  match classify_muls muls with
  | 0 => PopAction.emit
  | 1 => PopAction.dead
  | _ => PopAction.extend

theorem getD_set_eq {α : Type} (m : List α) (i : Nat) (a d : α) (h : i < m.length) :
    (m.set i a).getD i d = a := by
  rw [List.getD_eq_getElem?_getD, List.getElem?_set_self h]
  rfl

theorem getD_set_ne {α : Type} (m : List α) (i o : Nat) (a d : α) (h : i ≠ o) :
    (m.set i a).getD o d = m.getD o d := by
  rw [List.getD_eq_getElem?_getD, List.getElem?_set_ne h, ← List.getD_eq_getElem?_getD]

theorem add_ridge_muls_mono :
    ∀ (l : List (Nat × Nat)) (m : List Nat) (o : Nat),
      m.getD o 0 ≤ (add_ridge_muls m l).getD o 0 := by
  intro l
  induction l with
  | nil => intro m o; exact Nat.le_refl _
  | cons p rest ih =>
      intro m o
      have step : m.getD o 0 ≤ (m.set p.1 (m.getD p.1 0 + p.2)).getD o 0 := by
        by_cases hpo : p.1 = o
        · subst hpo
          by_cases hlen : p.1 < m.length
          · rw [getD_set_eq m p.1 _ 0 hlen]
            exact Nat.le_add_right _ _
          · rw [List.set_eq_of_length_le (by omega)]
        · rw [getD_set_ne m p.1 o _ 0 hpo]
      calc m.getD o 0 ≤ (m.set p.1 (m.getD p.1 0 + p.2)).getD o 0 := step
        _ ≤ _ := ih (m.set p.1 (m.getD p.1 0 + p.2)) o

theorem add_ridge_muls_break_cases :
    ∀ (l : List (Nat × Nat)) (m : List Nat),
      add_ridge_muls_break m l = add_ridge_muls m l ∨
      ((∃ o, 2 < (add_ridge_muls_break m l).getD o 0) ∧
        ∀ o, (add_ridge_muls_break m l).getD o 0 ≤ (add_ridge_muls m l).getD o 0) := by
  intro l
  induction l with
  | nil => intro m; exact Or.inl rfl
  | cons p rest ih =>
      intro m
      rcases p with ⟨orbit, mul⟩
      show add_ridge_muls_break m ((orbit, mul) :: rest) = _ ∨ _
      rw [add_ridge_muls_break]
      have hfull : add_ridge_muls m ((orbit, mul) :: rest) =
          add_ridge_muls (m.set orbit (m.getD orbit 0 + mul)) rest := rfl
      by_cases hb : 2 < (m.set orbit (m.getD orbit 0 + mul)).getD orbit 0
      · right
        simp only [hb, if_pos]
        refine ⟨⟨orbit, hb⟩, ?_⟩
        intro o
        rw [hfull]
        exact add_ridge_muls_mono rest _ o
      · simp only [hb, if_neg, if_false]
        rw [hfull]
        exact ih (m.set orbit (m.getD orbit 0 + mul))

theorem classify_loop_eq_one :
    ∀ (l : List Nat) (v : Nat), v ≠ 1 →
      (classify_loop v l = 1 ↔ ∃ r ∈ l, 2 < r) := by
  intro l
  induction l with
  | nil =>
      intro v hv
      constructor
      · intro h; exact absurd h hv
      · rintro ⟨r, hr, _⟩; exact absurd hr (List.not_mem_nil r)
  | cons r rest ih =>
      intro v hv
      rw [classify_loop]
      by_cases h2 : 2 < r
      · rw [if_pos h2]
        constructor
        · intro _; exact ⟨r, List.mem_cons_self r rest, h2⟩
        · intro _; rfl
      · rw [if_neg h2]
        by_cases h1 : r = 1
        · rw [if_pos h1]
          rw [ih 2 (by omega)]
          constructor
          · rintro ⟨s, hs, h2s⟩; exact ⟨s, List.mem_cons_of_mem r hs, h2s⟩
          · rintro ⟨s, hs, h2s⟩
            rcases List.mem_cons.mp hs with rfl | hs
            · omega
            · exact ⟨s, hs, h2s⟩
        · rw [if_neg h1]
          rw [ih v hv]
          constructor
          · rintro ⟨s, hs, h2s⟩; exact ⟨s, List.mem_cons_of_mem r hs, h2s⟩
          · rintro ⟨s, hs, h2s⟩
            rcases List.mem_cons.mp hs with rfl | hs
            · omega
            · exact ⟨s, hs, h2s⟩

theorem classify_loop_eq_zero :
    ∀ (l : List Nat) (v : Nat), v ≠ 1 →
      (classify_loop v l = 0 ↔ v = 0 ∧ ∀ r ∈ l, r = 0 ∨ r = 2) := by
  intro l
  induction l with
  | nil =>
      intro v hv
      constructor
      · intro h; exact ⟨h, by intro r hr; exact absurd hr (List.not_mem_nil r)⟩
      · rintro ⟨h, _⟩; exact h
  | cons r rest ih =>
      intro v hv
      rw [classify_loop]
      by_cases h2 : 2 < r
      · rw [if_pos h2]
        constructor
        · intro h; omega
        · rintro ⟨_, hall⟩
          rcases hall r (List.mem_cons_self r rest) with rfl | rfl <;> omega
      · rw [if_neg h2]
        by_cases h1 : r = 1
        · rw [if_pos h1]
          rw [ih 2 (by omega)]
          constructor
          · rintro ⟨h, _⟩; omega
          · rintro ⟨_, hall⟩
            rcases hall r (List.mem_cons_self r rest) with rfl | rfl <;> omega
        · rw [if_neg h1]
          rw [ih v hv]
          constructor
          · rintro ⟨hvz, hall⟩
            refine ⟨hvz, ?_⟩
            intro s hs
            rcases List.mem_cons.mp hs with rfl | hs
            · omega
            · exact hall s hs
          · rintro ⟨hvz, hall⟩
            exact ⟨hvz, fun s hs => hall s (List.mem_cons_of_mem r hs)⟩

theorem mem_iff_getD_all (v : List Nat) :
    (∀ r ∈ v, r = 0 ∨ r = 2) ↔ ∀ o, v.getD o 0 = 0 ∨ v.getD o 0 = 2 := by
  constructor
  · intro h o
    by_cases ho : o < v.length
    · rw [List.getD_eq_getElem?_getD, List.getElem?_eq_getElem ho]
      exact h _ (List.getElem_mem ho)
    · rw [List.getD_eq_getElem?_getD, List.getElem?_eq_none (by omega)]
      exact Or.inl rfl
  · intro h r hr
    rcases List.mem_iff_getElem.mp hr with ⟨i, hi, rfl⟩
    have := h i
    rwa [List.getD_eq_getElem?_getD, List.getElem?_eq_getElem hi] at this

theorem mem_iff_getD_ex (v : List Nat) :
    (∃ r ∈ v, 2 < r) ↔ ∃ o, 2 < v.getD o 0 := by
  constructor
  · rintro ⟨r, hr, h2⟩
    rcases List.mem_iff_getElem.mp hr with ⟨i, hi, rfl⟩
    refine ⟨i, ?_⟩
    rwa [List.getD_eq_getElem?_getD, List.getElem?_eq_getElem hi]
  · rintro ⟨o, h2⟩
    by_cases ho : o < v.length
    · refine ⟨v.getD o 0, ?_, h2⟩
      rw [List.getD_eq_getElem?_getD, List.getElem?_eq_getElem ho]
      exact List.getElem_mem ho
    · rw [List.getD_eq_getElem?_getD, List.getElem?_eq_none (by omega)] at h2
      simp at h2

theorem pop_action_emit_iff (m : List Nat) :
    pop_action m = PopAction.emit ↔ classify_muls m = 0 := by
  unfold pop_action
  rcases h : classify_muls m with _ | n
  · simp
  · rcases n with _ | n <;> simp

theorem pop_action_dead_iff (m : List Nat) :
    pop_action m = PopAction.dead ↔ classify_muls m = 1 := by
  unfold pop_action
  rcases h : classify_muls m with _ | n
  · simp
  · rcases n with _ | n <;> simp

/-- C1: a popped combination is emitted as an accepted faceting if and only if
every ridge orbit it touches has accumulated multiplicity exactly 2 (every
entry of the fully folded multiplicity vector is 0 or 2), and it is discarded
as a dead branch exactly when some ridge orbit's accumulated multiplicity
exceeds 2 (the source's early `break` cannot change the classification). -/
theorem combiner_accept_iff_all_two (cached : List Nat) (contribs : List (Nat × Nat)) :
    (pop_action (add_ridge_muls_break cached contribs) = PopAction.emit ↔
      ∀ o, (add_ridge_muls cached contribs).getD o 0 = 0 ∨
        (add_ridge_muls cached contribs).getD o 0 = 2) ∧
    (pop_action (add_ridge_muls_break cached contribs) = PopAction.dead ↔
      ∃ o, 2 < (add_ridge_muls cached contribs).getD o 0) := by
  rcases add_ridge_muls_break_cases contribs cached with heq | ⟨⟨o₀, ho₀⟩, hle⟩
  · constructor
    · rw [heq, pop_action_emit_iff, classify_muls, classify_loop_eq_zero _ 0 (by omega)]
      constructor
      · rintro ⟨_, h⟩; exact (mem_iff_getD_all _).mp h
      · intro h; exact ⟨rfl, (mem_iff_getD_all _).mpr h⟩
    · rw [heq, pop_action_dead_iff, classify_muls, classify_loop_eq_one _ 0 (by omega)]
      exact mem_iff_getD_ex _
  · have hclass : classify_muls (add_ridge_muls_break cached contribs) = 1 := by
      rw [classify_muls, classify_loop_eq_one _ 0 (by omega)]
      exact (mem_iff_getD_ex _).mpr ⟨o₀, ho₀⟩
    have hfull : 2 < (add_ridge_muls cached contribs).getD o₀ 0 :=
      lt_of_lt_of_le ho₀ (hle o₀)
    constructor
    · rw [pop_action_emit_iff, hclass]
      constructor
      · intro h; omega
      · intro h
        rcases h o₀ with h0 | h0 <;> omega
    · rw [pop_action_dead_iff, hclass]
      constructor
      · intro _; exact ⟨o₀, hfull⟩
      · intro _; rfl

/-! ## C4: the dyadic gate in the output loop of `Concrete::faceting` -/

/-- Modelled from the spec: dyadic closure of a rank structure ("every element
has exactly two covering elements one rank up for each element one rank down it
contains", spec section 3).  For every rank r, every element z at rank r+2 and
every element index w at rank r, the number of rank r+1 subelements of z that
contain w must be 0 or exactly 2.  This models `Ranks::is_dyadic` from the
crate's `abs` module (whose source is not in this tree), as used at
faceting.rs:2117. -/
def is_dyadic (ranks : Ranks) : Bool :=
  (List.range ranks.length).all fun r =>
    if r + 2 < ranks.length then
      (ranks.getD (r + 2) []).all fun z =>
        (List.range (ranks.getD r []).length).all fun w =>
          let between := z.subs.filter fun y =>
            (((ranks.getD (r + 1) []).getD y (Element.mk [] [])).subs).contains w
          between.length == 0 || between.length == 2
    else true

/-- The output loop of `Concrete::faceting` (faceting.rs:1952-2176), reduced to
its dyadic gate: each accepted facet set is assembled into a rank structure
(`assemble` abstracts the reconstruction of lines 1964-2106); the result is
kept only when `is_dyadic` passes, and the loop then continues with the next
accepted set in either case — the `if` at faceting.rs:2117 has no abort arm. -/
def build_facetings (assemble : List (Nat × Nat) → Ranks)
    (accepted : List (List (Nat × Nat))) : List Ranks :=
  accepted.foldl (fun out facets =>
    if is_dyadic (assemble facets) then out ++ [assemble facets] else out) []

/-- Modelled from the spec: the rank structure of a dyad (`Abstract::dyad()`
from the crate's `abs` module): nullitope, two vertices, one edge. -/
def dyad_ranks : Ranks :=
  [[Element.mk [] [0, 1]],
   [Element.mk [0] [0], Element.mk [0] [0]],
   [Element.mk [0, 1] []]]

/-- A rank structure violating dyadic closure: a single vertex covered by the
edge, so the nullitope-to-edge section has one middle element instead of two. -/
def broken_ranks : Ranks :=
  [[Element.mk [] [0]],
   [Element.mk [0] [0]],
   [Element.mk [0] []]]

/-- C4 counterexample: an assembled structure that fails the dyadic check is
silently skipped and the run continues: with two accepted facet sets whose
first assembles to a non-dyadic structure and whose second assembles to a
dyad, the output still contains the second — the run did not abort at the
first. -/
theorem dyadic_failure_does_not_abort :
    is_dyadic broken_ranks = false ∧ is_dyadic dyad_ranks = true ∧
    build_facetings
      (fun fs => if fs = [(0, 0)] then broken_ranks else dyad_ranks)
      [[(0, 0)], [(1, 0)]] = [dyad_ranks] := by
  decide

/-- C4 (amended): when an assembled rank structure fails the dyadic-closure
check, that faceting is skipped (not emitted) and the loop continues with the
next accepted faceting; the emitted list is exactly the dyadic-passing
assemblies, in order. -/
theorem build_facetings_filters (assemble : List (Nat × Nat) → Ranks)
    (accepted : List (List (Nat × Nat))) :
    build_facetings assemble accepted =
      (accepted.map assemble).filter (fun r => is_dyadic r) := by
  suffices H : ∀ (l : List (List (Nat × Nat))) (out : List Ranks),
      l.foldl (fun out facets =>
        if is_dyadic (assemble facets) then out ++ [assemble facets] else out) out =
      out ++ (l.map assemble).filter (fun r => is_dyadic r) by
    · rw [build_facetings, H accepted []]
      rfl
  intro l
  induction l with
  | nil => intro out; simp
  | cons hd tl ih =>
      intro out
      rw [List.foldl_cons, ih, List.map_cons, List.filter_cons]
      cases h : is_dyadic (assemble hd)
      · simp [h]
      · simp [h]

/-! ## C2: the rank-2 base case of `faceting_subdim` (faceting.rs:265-323) -/

/-- The possible-facet record returned for the first endpoint of the segment
(faceting.rs:283-291 and 310-318): a rank list with empty rank 0, one vertex
element, and one element whose single sub is vertex index 0. -/
def dyad_ridge_0 : Ranks :=
  [[], [Element.mk [0] []], [Element.mk [0] []]]

/-- The possible-facet record returned for the second endpoint of a snub
segment (faceting.rs:292-300): same shape but pointing at vertex index 1. -/
def dyad_ridge_1 : Ranks :=
  [[], [Element.mk [0] []], [Element.mk [1] []]]

/-- The rank-2 branch of `faceting_subdim` (faceting.rs:265-323): the snub
flag starts true and is cleared when some vertex-map row sends endpoint 0 to
endpoint 1; the snub case returns one faceting (the dyad) made of two facet
orbits of size 1 each, the non-snub case one faceting made of a single facet
orbit of size 2.  The four components mirror the source's return tuple
(facetings with facet types, orbit counts, possible facets, compound map). -/
def faceting_subdim_rank2 (vertex_map : List (List Nat)) :
    List (Ranks × List (Nat × Nat)) × List Nat × List (List Ranks) ×
      List (Nat × Nat × Nat) :=
  let snub := vertex_map.all fun row => row.getD 0 0 != 1
  if snub then
    ([(dyad_ranks, [(0, 0), (1, 0)])], [1, 1], [[dyad_ridge_0], [dyad_ridge_1]], [])
  else
    ([(dyad_ranks, [(0, 0)])], [2], [[dyad_ridge_0]], [])

/-- C2 counterexample: for the identity-only vertex map a row fixes endpoint 0
(so, per the claim, the single-result case with facet-orbit count 2 should
apply), yet the code takes the snub branch and returns orbit counts [1, 1]. -/
theorem rank2_base_case_counterexample :
    (∃ row ∈ [[0, 1]], List.getD row 0 9 = 0 ∧ List.getD row 1 9 = 1) ∧
    (faceting_subdim_rank2 [[0, 1]]).2.1 = [1, 1] ∧
    (faceting_subdim_rank2 [[0, 1]]).2.1 ≠ [2] := by
  decide

/-- C2 (amended): the rank-2 base case yields two facet orbits with counts
[1, 1] exactly when no vertex-map row maps endpoint 0 to endpoint 1 (the snub
case), and otherwise a single facet orbit with count 2; in both cases exactly
one faceting is produced, the segment (dyad) itself. -/
theorem rank2_base_case (vertex_map : List (List Nat)) :
    ((∀ row ∈ vertex_map, row.getD 0 0 ≠ 1) →
      faceting_subdim_rank2 vertex_map =
        ([(dyad_ranks, [(0, 0), (1, 0)])], [1, 1],
          [[dyad_ridge_0], [dyad_ridge_1]], [])) ∧
    ((∃ row ∈ vertex_map, row.getD 0 0 = 1) →
      faceting_subdim_rank2 vertex_map =
        ([(dyad_ranks, [(0, 0)])], [2], [[dyad_ridge_0]], [])) := by
  constructor
  · intro h
    have hall : (vertex_map.all fun row => row.getD 0 0 != 1) = true := by
      rw [List.all_eq_true]
      intro row hrow
      simpa using h row hrow
    rw [faceting_subdim_rank2]
    simp only [hall, if_pos]
  · rintro ⟨row, hrow, hfix⟩
    have hall : (vertex_map.all fun row => row.getD 0 0 != 1) = false := by
      rw [Bool.eq_false_iff]
      intro hcon
      rw [List.all_eq_true] at hcon
      have := hcon row hrow
      rw [List.getD_eq_getElem?_getD] at hfix
      simp at this
      exact this hfix
    rw [faceting_subdim_rank2]
    simp only [hall, if_neg, Bool.false_eq_true, if_false]

/-- Witness for the amended C2: the identity-only map takes the snub branch,
and a map whose single row swaps the endpoints takes the non-snub branch. -/
theorem rank2_base_case_witness :
    faceting_subdim_rank2 [[0, 1]] =
      ([(dyad_ranks, [(0, 0), (1, 0)])], [1, 1],
        [[dyad_ridge_0], [dyad_ridge_1]], []) ∧
    faceting_subdim_rank2 [[1, 0]] =
      ([(dyad_ranks, [(0, 0)])], [2], [[dyad_ridge_0]], []) :=
  ⟨(rank2_base_case [[0, 1]]).1 (by decide),
   (rank2_base_case [[1, 0]]).2 ⟨[1, 0], by decide, by decide⟩⟩

/-! ## C7: compound labelling (`label_irc`, faceting.rs:160-209) -/

/-- The inner subset scan of `label_irc` (faceting.rs:171-181): walk the
candidate subset `bl` along the base list `al`; a base element smaller than
the current subset element is skipped (`continue`), a subset element smaller
than the base element aborts (`break`), equality advances both; the scan
succeeds as soon as the subset is exhausted. -/
def subset_scan : List Nat → List Nat → Bool
  | _, [] => false
  | [], _ :: _ => false
  | b :: bs, f :: fs =>
      if b > f then subset_scan (b :: bs) fs
      else if b < f then false
      else if bs.isEmpty then true else subset_scan bs fs

/-- The complement computation of `label_irc` (faceting.rs:182-195): a base
element is pushed when the subset pointer is exhausted or points above it;
otherwise the pointer advances without pushing. -/
def complement_scan : List Nat → List Nat → List Nat
  | _, [] => []
  | [], g :: gs => g :: complement_scan [] gs
  | b :: bs, g :: gs =>
      if b > g then g :: complement_scan (b :: bs) gs
      else complement_scan bs gs

/-- Linear search used for the complement (faceting.rs:197-202): first index at
or after the counter whose entry equals the target. -/
def find_from_aux (target : List Nat) : List (List Nat) → Nat → Option Nat
  | [], _ => none
  | l :: rest, c => if l = target then some c else find_from_aux target rest (c + 1)

/-- Search `vec[start..]` for the complement (faceting.rs:197). -/
def find_from (vec : List (List Nat)) (target : List Nat) (start : Nat) : Option Nat :=
  find_from_aux target (vec.drop start) start

/-- The inner `b` loop of `label_irc` (faceting.rs:164-206) for one base set
`al`: skip candidates at least as long as the base, stop at the first whose
head exceeds the base's head, and at the first subset found look up the
complement (recording nothing when it is absent) and stop. -/
def find_components (vec : List (List Nat)) (al : List Nat) :
    List (List Nat) → Nat → Option (Nat × Nat)
  | [], _ => none
  | bl :: rest, b =>
      if bl.length ≥ al.length then find_components vec al rest (b + 1)
      else if bl.headD 0 > al.headD 0 then none
      else if subset_scan bl al then
        match find_from vec (complement_scan bl al) (b + 1) with
        | some c => some (b, c)
        | none => none
      else find_components vec al rest (b + 1)

/-- The compound-labelling pass `label_irc` (faceting.rs:160-209): for each
faceting it records, when found, the pair of component indices; the hash map
of the source is modelled as the association list of its insertions. -/
def label_irc (vec : List (List Nat)) : List (Nat × Nat × Nat) :=
  (List.range vec.length).filterMap fun a =>
    match find_components vec (vec.getD a []) vec 0 with
    | some (b, c) => some (a, b, c)
    | none => none

theorem subset_scan_sublist :
    ∀ (al bl : List Nat), subset_scan bl al = true → bl.Sublist al := by
  intro al
  induction al with
  | nil =>
      intro bl h
      cases bl <;> simp [subset_scan] at h
  | cons f fs ih =>
      intro bl h
      match bl with
      | [] => simp [subset_scan] at h
      | b :: bs =>
          rw [subset_scan] at h
          by_cases hbf : b > f
          · rw [if_pos hbf] at h
            exact (ih (b :: bs) h).cons f
          · rw [if_neg hbf] at h
            by_cases hbf2 : b < f
            · rw [if_pos hbf2] at h
              exact absurd h (by simp)
            · rw [if_neg hbf2] at h
              have hbe : b = f := by omega
              subst hbe
              by_cases hbs : bs.isEmpty
              · have hnil : bs = [] := List.isEmpty_iff.mp hbs
                subst hnil
                exact List.cons_sublist_cons.mpr (List.nil_sublist fs)
              · rw [if_neg hbs] at h
                exact List.cons_sublist_cons.mpr (ih bs h)

theorem complement_scan_nil : ∀ gs : List Nat, complement_scan [] gs = gs := by
  intro gs
  induction gs with
  | nil => rfl
  | cons g gs ih => rw [complement_scan, ih]

theorem complement_scan_eq_filter :
    ∀ (al bl : List Nat), bl.Sublist al → List.Sorted (· < ·) al →
      complement_scan bl al = al.filter (fun x => decide (x ∉ bl)) := by
  intro al
  induction al with
  | nil =>
      intro bl hsub _
      have hnil : bl = [] := List.sublist_nil.mp hsub
      subst hnil
      rfl
  | cons g gs ih =>
      intro bl hsub hsort
      cases bl with
      | nil =>
          rw [complement_scan_nil]
          simp
      | cons b bs =>
          cases hsub with
          | cons _ hsub2 =>
              have hgb : g < b :=
                List.rel_of_sorted_cons hsort b (hsub2.subset (List.mem_cons_self b bs))
              rw [complement_scan, if_pos hgb,
                ih (b :: bs) hsub2 (List.sorted_cons.mp hsort).2, List.filter_cons]
              have hg : g ∉ b :: bs := by
                intro hmem
                exact absurd (List.rel_of_sorted_cons hsort g (hsub2.subset hmem))
                  (lt_irrefl g)
              simp [hg]
          | cons₂ _ hsub2 =>
              rw [complement_scan, if_neg (lt_irrefl g),
                ih bs hsub2 (List.sorted_cons.mp hsort).2, List.filter_cons]
              have hb : g ∈ g :: bs := List.mem_cons_self g bs
              have hcongr : ∀ x ∈ gs, (decide (x ∉ bs)) = (decide (x ∉ g :: bs)) := by
                intro x hx
                have hbx : g < x := List.rel_of_sorted_cons hsort x hx
                have : (x ∉ bs) ↔ (x ∉ g :: bs) := by
                  rw [List.mem_cons]
                  constructor
                  · intro hn hor
                    rcases hor with rfl | hm
                    · omega
                    · exact hn hm
                  · intro hn hm
                    exact hn (Or.inr hm)
                exact decide_eq_decide.mpr this
              rw [List.filter_congr hcongr]
              simp [hb]

theorem complement_scan_perm :
    ∀ (al bl : List Nat), bl.Sublist al → List.Sorted (· < ·) al →
      (bl ++ complement_scan bl al).Perm al := by
  intro al
  induction al with
  | nil =>
      intro bl hsub _
      have hnil : bl = [] := List.sublist_nil.mp hsub
      subst hnil
      exact List.Perm.refl _
  | cons g gs ih =>
      intro bl hsub hsort
      cases bl with
      | nil =>
          rw [complement_scan_nil]
          exact List.Perm.refl _
      | cons b bs =>
          cases hsub with
          | cons _ hsub2 =>
              have hgb : g < b :=
                List.rel_of_sorted_cons hsort b (hsub2.subset (List.mem_cons_self b bs))
              rw [complement_scan, if_pos hgb]
              have h1 : ((b :: bs) ++ g :: complement_scan (b :: bs) gs).Perm
                  (g :: ((b :: bs) ++ complement_scan (b :: bs) gs)) := List.perm_middle
              have h2 := (ih (b :: bs) hsub2 (List.sorted_cons.mp hsort).2).cons g
              exact h1.trans h2
          | cons₂ _ hsub2 =>
              rw [complement_scan, if_neg (lt_irrefl g)]
              exact (ih bs hsub2 (List.sorted_cons.mp hsort).2).cons g

theorem find_from_aux_spec (target : List Nat) :
    ∀ (rest : List (List Nat)) (c0 c : Nat),
      find_from_aux target rest c0 = some c →
      ∃ k, k < rest.length ∧ c = c0 + k ∧ rest.getD k [] = target := by
  intro rest
  induction rest with
  | nil =>
      intro c0 c h
      exact absurd h (by simp [find_from_aux])
  | cons l rest ih =>
      intro c0 c h
      rw [find_from_aux] at h
      by_cases hl : l = target
      · rw [if_pos hl] at h
        refine ⟨0, by simp, ?_, by simpa using hl⟩
        have : c0 = c := Option.some.inj h
        omega
      · rw [if_neg hl] at h
        rcases ih (c0 + 1) c h with ⟨k, hk, hc, ht⟩
        refine ⟨k + 1, by simpa using Nat.succ_lt_succ hk, by omega, by simpa using ht⟩

theorem find_from_found (vec : List (List Nat)) (target : List Nat) (start c : Nat)
    (h : find_from vec target start = some c) :
    start ≤ c ∧ c < vec.length ∧ vec.getD c [] = target := by
  rcases find_from_aux_spec target (vec.drop start) start c h with ⟨k, hk, hc, ht⟩
  rw [List.length_drop] at hk
  refine ⟨by omega, by omega, ?_⟩
  rw [List.getD_eq_getElem?_getD] at ht
  rw [List.getElem?_drop] at ht
  rw [hc, List.getD_eq_getElem?_getD]
  exact ht

theorem find_components_spec (vec : List (List Nat)) (al : List Nat) :
    ∀ (rest : List (List Nat)) (b0 b c : Nat),
      find_components vec al rest b0 = some (b, c) →
      ∃ k, k < rest.length ∧ b = b0 + k ∧
        (rest.getD k []).length < al.length ∧
        subset_scan (rest.getD k []) al = true ∧
        find_from vec (complement_scan (rest.getD k []) al) (b + 1) = some c := by
  intro rest
  induction rest with
  | nil =>
      intro b0 b c h
      exact absurd h (by simp [find_components])
  | cons bl rest ih =>
      intro b0 b c h
      rw [find_components] at h
      by_cases h1 : bl.length ≥ al.length
      · rw [if_pos h1] at h
        rcases ih (b0 + 1) b c h with ⟨k, hk, hb, hlen, hscan, hfind⟩
        exact ⟨k + 1, by simpa using Nat.succ_lt_succ hk, by omega,
          by simpa using hlen, by simpa using hscan, by simpa using hfind⟩
      · rw [if_neg h1] at h
        by_cases h2 : bl.headD 0 > al.headD 0
        · rw [if_pos h2] at h
          exact absurd h (by simp)
        · rw [if_neg h2] at h
          by_cases h3 : subset_scan bl al
          · rw [if_pos h3] at h
            cases hf : find_from vec (complement_scan bl al) (b0 + 1) with
            | none =>
                rw [hf] at h
                exact absurd h (by simp)
            | some c2 =>
                rw [hf] at h
                have hbc : b0 = b ∧ c2 = c := by
                  have := Option.some.inj h
                  exact ⟨congrArg Prod.fst this, congrArg Prod.snd this⟩
                refine ⟨0, by simp, by omega, by simpa using (by omega : bl.length < al.length),
                  by simpa using h3, ?_⟩
                show find_from vec (complement_scan ((bl :: rest).getD 0 []) al) (b + 1) = some c
                have hb0 : (bl :: rest).getD 0 [] = bl := rfl
                rw [hb0, ← hbc.1, hf, hbc.2]
          · rw [if_neg h3] at h
            rcases ih (b0 + 1) b c h with ⟨k, hk, hb, hlen, hscan, hfind⟩
            exact ⟨k + 1, by simpa using Nat.succ_lt_succ hk, by omega,
              by simpa using hlen, by simpa using hscan, by simpa using hfind⟩

/-- C7: soundness of the compound labelling.  For a lexicographically sorted
list of sorted nonempty facet-orbit sets, whenever `label_irc` labels entry
`a` as compound of `(b, c)`: `b` and `c` index entries of the accepted list,
the set at `b` is a strict sorted subset (sublist) of the set at `a`, the set
at `c` is exactly the complement `A` minus `B`, and `A` is the sorted union of
`B` and `C` (their concatenation is a permutation of `A`). -/
theorem label_irc_compound_sound (vec : List (List Nat))
    (hsorted : List.Sorted (· ≤ ·) vec)
    (hentries : ∀ l ∈ vec, List.Sorted (· < ·) l)
    (hne : ∀ l ∈ vec, l ≠ [])
    (a b c : Nat) (hmem : (a, b, c) ∈ label_irc vec) :
    a < vec.length ∧ b < vec.length ∧ c < vec.length ∧ b < c ∧
    (vec.getD b []).Sublist (vec.getD a []) ∧
    (vec.getD b []).length < (vec.getD a []).length ∧
    vec.getD c [] = (vec.getD a []).filter (fun x => decide (x ∉ vec.getD b [])) ∧
    ((vec.getD b []) ++ (vec.getD c [])).Perm (vec.getD a []) := by
  rw [label_irc] at hmem
  rcases List.mem_filterMap.mp hmem with ⟨a2, ha2, heq⟩
  cases hf : find_components vec (vec.getD a2 []) vec 0 with
  | none =>
      rw [hf] at heq
      exact absurd heq (by simp)
  | some bc =>
      rw [hf] at heq
      rcases bc with ⟨b2, c2⟩
      have h3 : a2 = a ∧ b2 = b ∧ c2 = c := by
        have h4 := Option.some.inj heq
        refine ⟨congrArg (fun x => x.1) h4, congrArg (fun x => x.2.1) h4,
          congrArg (fun x => x.2.2) h4⟩
      obtain ⟨rfl, rfl, rfl⟩ := h3
      have ha : a2 < vec.length := List.mem_range.mp ha2
      rcases find_components_spec vec (vec.getD a2 []) vec 0 b2 c2 hf with
        ⟨k, hk, hb, hlen, hscan, hfind⟩
      have hbk : k = b2 := by omega
      subst hbk
      have halmem : vec.getD a2 [] ∈ vec := by
        rw [List.getD_eq_getElem?_getD, List.getElem?_eq_getElem ha]
        exact List.getElem_mem ha
      have hsub := subset_scan_sublist (vec.getD a2 []) (vec.getD k []) hscan
      have hsorta := hentries (vec.getD a2 []) halmem
      rcases find_from_found vec _ (k + 1) c2 hfind with ⟨hbc, hc, hcomp⟩
      refine ⟨ha, hk, hc, by omega, hsub, hlen, ?_, ?_⟩
      · rw [hcomp, complement_scan_eq_filter _ _ hsub hsorta]
      · rw [hcomp]
        exact complement_scan_perm _ _ hsub hsorta

/-- Witness for C7: in the sorted accepted list [[0], [0,1], [1]] the entry
[0,1] is labelled as the compound of [0] and [1], and all claimed relations
hold there. -/
theorem label_irc_compound_sound_witness :
    1 < ([[0], [0, 1], [1]] : List (List Nat)).length ∧
    0 < ([[0], [0, 1], [1]] : List (List Nat)).length ∧
    2 < ([[0], [0, 1], [1]] : List (List Nat)).length ∧
    0 < 2 ∧
    (([[0], [0, 1], [1]] : List (List Nat)).getD 0 []).Sublist
      (([[0], [0, 1], [1]] : List (List Nat)).getD 1 []) ∧
    (([[0], [0, 1], [1]] : List (List Nat)).getD 0 []).length <
      (([[0], [0, 1], [1]] : List (List Nat)).getD 1 []).length ∧
    ([[0], [0, 1], [1]] : List (List Nat)).getD 2 [] =
      (([[0], [0, 1], [1]] : List (List Nat)).getD 1 []).filter
        (fun x => decide (x ∉ ([[0], [0, 1], [1]] : List (List Nat)).getD 0 [])) ∧
    ((([[0], [0, 1], [1]] : List (List Nat)).getD 0 []) ++
      (([[0], [0, 1], [1]] : List (List Nat)).getD 2 [])).Perm
      (([[0], [0, 1], [1]] : List (List Nat)).getD 1 []) :=
  label_irc_compound_sound [[0], [0, 1], [1]] (by decide) (by decide) (by decide)
    1 0 2 (by decide)

/-! ## C8: targeted extension of an incomplete combination
(faceting.rs:1901-1926, with the binary search of faceting.rs:142-157) -/

theorem tmod_two_lower (a : Int) : -2 < a.tmod 2 := by
  cases a with
  | ofNat m =>
      have h0 : (0 : Int) ≤ Int.ofNat m := Int.ofNat_nonneg m
      have h := Int.tmod_nonneg 2 h0
      omega
  | negSucc m =>
      have h : Int.tmod (Int.negSucc m) 2 = -(((m + 1) % 2 : Nat) : Int) := rfl
      have h2 : (m + 1) % 2 < 2 := Nat.mod_lt _ (by omega)
      omega

theorem tdiv_mid_bounds (lo hi : Int) (h : lo + 2 ≤ hi) :
    lo < (lo + hi).tdiv 2 ∧ (lo + hi).tdiv 2 < hi := by
  have hid := Int.tdiv_add_tmod (lo + hi) 2
  have hm1 : -2 < (lo + hi).tmod 2 := tmod_two_lower _
  have hm2 : (lo + hi).tmod 2 < 2 := Int.tmod_lt_of_pos _ (by norm_num)
  omega

/-- The loop of the modified binary search (faceting.rs:142-157).  `lo` and
`hi` are `isize` in the source, modelled as `Int`; Rust's `/` on `isize`
truncates toward zero, which is `Int.tdiv`. -/
def binary_loop (vec : List (Nat × Nat)) (mn : Nat) (lo hi : Int) : Int :=
  if 1 < hi - lo then
    let c := (lo + hi).tdiv 2
    if mn < (vec.getD c.toNat (0, 0)).1 then binary_loop vec mn lo c
    else binary_loop vec mn c hi
  else hi
termination_by (hi - lo).toNat
decreasing_by
  · have hb := tdiv_mid_bounds lo hi (by omega)
    omega
  · have hb := tdiv_mid_bounds lo hi (by omega)
    omega

/-- Modified binary search that finds the first element of `vec` whose first
component is greater than `mn` (faceting.rs:141-157): starts with
`lo = -1`, `hi = vec.len()` and returns `hi` as a `usize`. -/
def binary (vec : List (Nat × Nat)) (mn : Nat) : Nat :=
  (binary_loop vec mn (-1) (vec.length : Int)).toNat

theorem binary_loop_spec (vec : List (Nat × Nat)) (mn : Nat)
    (hsorted : List.Pairwise (fun p q : Nat × Nat => p.1 ≤ q.1) vec) :
    ∀ (n : Nat) (lo hi : Int), (hi - lo).toNat ≤ n →
      -1 ≤ lo → lo < hi → hi ≤ (vec.length : Int) →
      (∀ i : Nat, i < vec.length → (i : Int) ≤ lo → (vec.getD i (0, 0)).1 ≤ mn) →
      (∀ i : Nat, i < vec.length → hi ≤ (i : Int) → mn < (vec.getD i (0, 0)).1) →
      0 ≤ binary_loop vec mn lo hi ∧
      binary_loop vec mn lo hi ≤ (vec.length : Int) ∧
      (∀ i : Nat, i < vec.length → (i : Int) < binary_loop vec mn lo hi →
        (vec.getD i (0, 0)).1 ≤ mn) ∧
      (∀ i : Nat, i < vec.length → binary_loop vec mn lo hi ≤ (i : Int) →
        mn < (vec.getD i (0, 0)).1) := by
  have hmono : ∀ (i j : Nat), i ≤ j → j < vec.length →
      (vec.getD i (0, 0)).1 ≤ (vec.getD j (0, 0)).1 := by
    intro i j hij hj
    rcases Nat.eq_or_lt_of_le hij with rfl | hlt
    · exact Nat.le_refl _
    · have hi : i < vec.length := by omega
      have := (List.pairwise_iff_getElem.mp hsorted) i j hi hj hlt
      rw [List.getD_eq_getElem?_getD, List.getD_eq_getElem?_getD,
        List.getElem?_eq_getElem hi, List.getElem?_eq_getElem hj]
      exact this
  intro n
  induction n with
  | zero =>
      intro lo hi hfuel _ hlt _ _ _
      omega
  | succ n ih =>
      intro lo hi hfuel hlo hlt hhi hlow hhigh
      rw [binary_loop]
      by_cases hcond : 1 < hi - lo
      · rw [if_pos hcond]
        have hb := tdiv_mid_bounds lo hi (by omega)
        set c := (lo + hi).tdiv 2 with hc
        have hc0 : 0 ≤ c := by omega
        have hcnat : (c.toNat : Int) = c := Int.toNat_of_nonneg hc0
        have hclen : c.toNat < vec.length := by omega
        by_cases hp : mn < (vec.getD c.toNat (0, 0)).1
        · rw [if_pos hp]
          refine ih lo c (by omega) hlo (by omega) (by omega) hlow ?_
          intro i hilen hci
          have : c.toNat ≤ i := by omega
          exact Nat.lt_of_lt_of_le hp (hmono c.toNat i this hilen)
        · rw [if_neg hp]
          refine ih c hi (by omega) (by omega) (by omega) hhi ?_ hhigh
          intro i hilen hic
          have : i ≤ c.toNat := by omega
          exact Nat.le_trans (hmono i c.toNat this hclen) (by omega)
      · rw [if_neg hcond]
        refine ⟨by omega, hhi, ?_, hhigh⟩
        intro i hilen hihi
        exact hlow i hilen (by omega)

theorem binary_spec (vec : List (Nat × Nat)) (mn : Nat)
    (hsorted : List.Pairwise (fun p q : Nat × Nat => p.1 ≤ q.1) vec) :
    binary vec mn ≤ vec.length ∧
    (∀ i, i < binary vec mn → (vec.getD i (0, 0)).1 ≤ mn) ∧
    (∀ i, binary vec mn ≤ i → i < vec.length → mn < (vec.getD i (0, 0)).1) := by
  by_cases hlen : vec.length = 0
  · have h0 : binary vec mn = 0 := by
      rw [binary, binary_loop]
      rw [hlen]
      norm_num
    rw [h0]
    refine ⟨Nat.zero_le _, ?_, ?_⟩
    · intro i hi
      omega
    · intro i _ hi
      omega
  · have hpos : 0 < vec.length := Nat.pos_of_ne_zero hlen
    have h := binary_loop_spec vec mn hsorted ((vec.length : Int) - (-1)).toNat
      (-1) (vec.length : Int) (Nat.le_refl _) (by omega) (by omega)
      (le_refl _) (by intro i _ hi; omega) (by intro i hi hge; exfalso; omega)
    rcases h with ⟨h0, h1, h2, h3⟩
    rw [binary]
    refine ⟨by omega, ?_, ?_⟩
    · intro i hi
      have hilen : i < vec.length := by omega
      exact h2 i hilen (by omega)
    · intro i hge hilen
      exact h3 i hilen (by omega)

theorem drop_binary_eq_filter (vec : List (Nat × Nat)) (mn : Nat)
    (hsorted : List.Pairwise (fun p q : Nat × Nat => p.1 ≤ q.1) vec) :
    vec.drop (binary vec mn) = vec.filter (fun p => decide (mn < p.1)) := by
  rcases binary_spec vec mn hsorted with ⟨hle, hlow, hhigh⟩
  set k := binary vec mn with hk
  have h1 : (vec.take k).filter (fun p : Nat × Nat => decide (mn < p.1)) = [] := by
    rw [List.filter_eq_nil_iff]
    intro x hx
    rcases List.mem_iff_getElem.mp hx with ⟨i, hi, rfl⟩
    rw [List.length_take, lt_min_iff] at hi
    obtain ⟨hik, hilen⟩ := hi
    rw [List.getElem_take]
    have hv := hlow i hik
    rw [List.getD_eq_getElem?_getD, List.getElem?_eq_getElem hilen] at hv
    simp only [Option.getD_some] at hv
    simp only [decide_eq_true_eq]
    omega
  have h2 : (vec.drop k).filter (fun p : Nat × Nat => decide (mn < p.1)) = vec.drop k := by
    rw [List.filter_eq_self]
    intro x hx
    rcases List.mem_iff_getElem.mp hx with ⟨j, hj, rfl⟩
    have hjlen : k + j < vec.length := by
      rw [List.length_drop] at hj
      omega
    rw [List.getElem_drop]
    have hv := hhigh (k + j) (by omega) hjlen
    rw [List.getD_eq_getElem?_getD, List.getElem?_eq_getElem hjlen] at hv
    simp only [Option.getD_some] at hv
    simp only [decide_eq_true_eq]
    omega
  conv_rhs => rw [← List.take_append_drop k vec]
  rw [List.filter_append, h1, h2, List.nil_append]

theorem contains_eq_decide_mem (l : List Nat) (a : Nat) :
    l.contains a = decide (a ∈ l) := by
  by_cases h : a ∈ l
  · simp [h]
  · simp [h]

/-- The extension step for a combination classified incomplete
(faceting.rs:1901-1926): find the first ridge orbit with multiplicity 1, take
the precomputed `ones` list for that orbit from the binary-searched position
on, skip facets whose hyperplane orbit is used by `facets[1..]`, and enqueue
each remaining facet appended to the combination, with `min_hp` and the
updated multiplicity vector carried unchanged. -/
def extend_incomplete (ones : List (List (Nat × Nat))) (facets : List (Nat × Nat))
    (min_hp : Nat) (new_ridge_muls : List Nat) :
    List (List (Nat × Nat) × Nat × List Nat) :=
  match List.findIdx? (fun m => m == 1) new_ridge_muls with
  | none => []
  | some idx =>
      let used_hps := (facets.drop 1).map Prod.fst
      (((ones.getD idx []).drop (binary (ones.getD idx []) min_hp)).filter
        (fun facet => !(used_hps.contains facet.1))).map
        (fun facet => (facets ++ [facet], min_hp, new_ridge_muls))

/-- The claim's description of the same step (C8, spec section 4.5): append
one facet from the precomputed list of facets that supply multiplicity 1 to
the first open ridge orbit, restricted to hyperplane-orbit index at or above
the current minimum hyperplane index and to hyperplane orbits not already
used anywhere in the combination. -/
def extend_incomplete_spec (ones : List (List (Nat × Nat))) (facets : List (Nat × Nat))
    (min_hp : Nat) (new_ridge_muls : List Nat) :
    List (List (Nat × Nat) × Nat × List Nat) :=
  match List.findIdx? (fun m => m == 1) new_ridge_muls with
  | none => []
  | some idx =>
      ((ones.getD idx []).filter
        (fun facet => decide (min_hp ≤ facet.1) &&
          !((facets.map Prod.fst).contains facet.1))).map
        (fun facet => (facets ++ [facet], min_hp, new_ridge_muls))

/-- C8: on every reachable incomplete combination (the first facet's
hyperplane orbit is at most `min_hp`, and `min_hp` is the hyperplane orbit of
some chosen facet; each `ones` row is ordered by hyperplane orbit as built),
the enqueued extensions are exactly the ones the claim describes: each facet
of the first open ridge orbit's multiplicity-1 list with hyperplane orbit at
or above the minimum and not already used in the combination, appended to it. -/
theorem extend_incomplete_matches_spec
    (ones : List (List (Nat × Nat))) (first : Nat × Nat) (rest : List (Nat × Nat))
    (min_hp : Nat) (new_ridge_muls : List Nat)
    (hones : ∀ l ∈ ones, List.Pairwise (fun p q : Nat × Nat => p.1 ≤ q.1) l)
    (hfirst : first.1 ≤ min_hp)
    (hmin : min_hp ∈ (first :: rest).map Prod.fst) :
    extend_incomplete ones (first :: rest) min_hp new_ridge_muls =
      extend_incomplete_spec ones (first :: rest) min_hp new_ridge_muls := by
  rw [extend_incomplete, extend_incomplete_spec]
  cases hidx : List.findIdx? (fun m => m == 1) new_ridge_muls with
  | none => rfl
  | some idx =>
      have hrow : List.Pairwise (fun p q : Nat × Nat => p.1 ≤ q.1) (ones.getD idx []) := by
        by_cases h : idx < ones.length
        · apply hones
          rw [List.getD_eq_getElem?_getD, List.getElem?_eq_getElem h]
          exact List.getElem_mem h
        · rw [List.getD_eq_getElem?_getD, List.getElem?_eq_none (by omega)]
          exact List.Pairwise.nil
      simp only []
      rw [drop_binary_eq_filter _ _ hrow, List.filter_filter]
      congr 1
      apply List.filter_congr
      intro p hp
      have key : (p.1 ∉ List.map Prod.fst rest ∧ min_hp < p.1) ↔
          (min_hp ≤ p.1 ∧ p.1 ∉ List.map Prod.fst (first :: rest)) := by
        rw [List.map_cons, List.mem_cons]
        constructor
        · rintro ⟨hnr, hlt⟩
          refine ⟨by omega, ?_⟩
          rintro (heq | hmem)
          · omega
          · exact hnr hmem
        · rintro ⟨hle, hnall⟩
          have hne : p.1 ≠ min_hp := by
            intro heq
            rw [List.map_cons, List.mem_cons] at hmin
            rcases hmin with h1 | h2
            · exact hnall (Or.inl (by omega))
            · exact hnall (Or.inr (heq ▸ h2))
          exact ⟨fun hmem => hnall (Or.inr hmem), by omega⟩
      simp only [contains_eq_decide_mem, List.drop_one, List.tail_cons]
      apply Bool.eq_iff_iff.mpr
      simp only [Bool.and_eq_true, Bool.not_eq_true', decide_eq_false_iff_not,
        decide_eq_true_eq]
      constructor
      · rintro ⟨h1, h2⟩
        exact key.mp ⟨h1, h2⟩
      · rintro ⟨h1, h2⟩
        exact key.mpr ⟨h1, h2⟩

/-- Witness for C8: a concrete incomplete combination where the step and the
claim's description produce the same (nonempty) extension list. -/
theorem extend_incomplete_matches_spec_witness :
    extend_incomplete [[(0, 0), (1, 0), (2, 0)]] [(0, 0)] 0 [1] =
      extend_incomplete_spec [[(0, 0), (1, 0), (2, 0)]] [(0, 0)] 0 [1] :=
  extend_incomplete_matches_spec [[(0, 0), (1, 0), (2, 0)]] (0, 0) [] 0 [1]
    (by decide) (by decide) (by decide)

/-! ## C6: the strong canonicalization sort
(`Ranks::element_sort_strong`, faceting.rs:33-67) -/

/-- Model of `abs::Element::sort` as invoked by the faceting code: sorts the
subelement and superelement lists (the code only calls it on freshly built
elements with empty `sups`).  Modelled from the spec's canonicalization
description. -/
def Element.sortEl (e : Element) : Element :=
  Element.mk (e.subs.insertionSort (· ≤ ·)) (e.sups.insertionSort (· ≤ ·))

/-- `sorted.iter().position(|x| x == i).unwrap()` (faceting.rs:48): index of
the first occurrence, mirroring the linear scan. -/
def position_of (s : List Nat) : List (List Nat) → Nat
  | [] => 0
  | x :: rest => if x = s then 0 else position_of s rest + 1

/-- The permutation built at faceting.rs:46-49: for every entry of `all_subs`
the first position of that entry inside the sorted copy. -/
def perm_of (all_subs : List (List Nat)) : List Nat :=
  all_subs.map (fun s => position_of s (all_subs.insertionSort (· ≤ ·)))

/-- One iteration of the `for rank in 2..self.len()-1` loop of
`element_sort_strong` (faceting.rs:38-66), acting on the element lists at
`rank` (`cur`) and `rank+1` (`next`): collect the sub-lists, sort the
collection, overwrite each element of `cur` with its entry of the sorted
collection (sorted internally, keeping its own `sups`), and rebuild every
element of `next` by remapping each subelement reference through the
permutation and sorting it. -/
def strong_step (cur next : List Element) : List Element × List Element :=
  let all_subs := cur.map Element.subs
  let sorted := all_subs.insertionSort (· ≤ ·)
  let perm := perm_of all_subs
  let cur2 := (cur.zip sorted).map
    (fun es => Element.mk (es.2.insertionSort (· ≤ ·)) es.1.sups)
  let next2 := next.map
    (fun e => Element.sortEl (Element.mk (e.subs.map (fun v => perm.getD v 0)) []))
  (cur2, next2)

/-- The loop of `element_sort_strong`: each iteration reads and writes only
the ranks `rank` and `rank+1`, so the pass is a sweep carrying the current
level through the remaining levels; the last level is written once as a
`next` and never revisited. -/
def strong_sweep : List Element → List (List Element) → List (List Element)
  | cur, [] => [cur]
  | cur, next :: rest =>
      let cn := strong_step cur next
      cn.1 :: strong_sweep cn.2 rest

/-- `self[2][el].subs.sort_unstable()` (faceting.rs:34-36): sort an element's
sub-list in place, keeping its sups. -/
def sort_subs_el (e : Element) : Element :=
  Element.mk (e.subs.insertionSort (· ≤ ·)) e.sups

/-- `Ranks::element_sort_strong` (faceting.rs:33-67): sort every rank-2
element's `subs` in place, then run the rank loop.  With fewer than three
ranks the source would index out of bounds (`self[2]`); the embedding keeps
the input unchanged there. -/
def element_sort_strong (ranks : Ranks) : Ranks :=
  match ranks with
  | r0 :: r1 :: r2 :: rest =>
      r0 :: r1 :: strong_sweep (r2.map sort_subs_el) rest
  | other => other

/-- All elements of a level have internally sorted sub-lists. -/
def innerSorted (l : List Element) : Prop :=
  ∀ e ∈ l, List.Sorted (· ≤ ·) e.subs

/-- The level's list of sub-lists is lexicographically sorted and each entry
is internally sorted: the state a `cur` level reaches after its iteration. -/
def goodCur (c : List Element) : Prop :=
  List.Sorted (· ≤ ·) (c.map Element.subs) ∧ innerSorted c

/-- A subelement value `v` is a fixed point of the permutation a second pass
over `c` would build. -/
def stableVal (c : List Element) (v : Nat) : Prop :=
  (perm_of (c.map Element.subs)).getD v 0 = v

/-- The state a `next` level reaches after an iteration, relative to the
`cur` output `c`: sorted subs, empty sups, and all references fixed points of
the second-pass permutation. -/
def goodNext (c : List Element) (n : List Element) : Prop :=
  ∀ e ∈ n, List.Sorted (· ≤ ·) e.subs ∧ e.sups = [] ∧ ∀ v ∈ e.subs, stableVal c v

theorem position_of_lt_length (s : List Nat) :
    ∀ (L : List (List Nat)), s ∈ L → position_of s L < L.length := by
  intro L
  induction L with
  | nil => intro h; exact absurd h (List.not_mem_nil s)
  | cons x rest ih =>
      intro h
      rw [position_of]
      by_cases hx : x = s
      · rw [if_pos hx]
        simp
      · rw [if_neg hx]
        have hs : s ∈ rest := by
          rcases List.mem_cons.mp h with rfl | h2
          · exact absurd rfl hx
          · exact h2
        have := ih hs
        simp
        omega

theorem position_of_getD (s : List Nat) :
    ∀ (L : List (List Nat)), s ∈ L → L.getD (position_of s L) [] = s := by
  intro L
  induction L with
  | nil => intro h; exact absurd h (List.not_mem_nil s)
  | cons x rest ih =>
      intro h
      rw [position_of]
      by_cases hx : x = s
      · rw [if_pos hx]
        exact hx
      · rw [if_neg hx]
        have hs : s ∈ rest := by
          rcases List.mem_cons.mp h with rfl | h2
          · exact absurd rfl hx
          · exact h2
        simpa using ih hs

theorem zip_self_map {α β : Type} (g : α → β) :
    ∀ (l : List α), l.zip (l.map g) = l.map (fun a => (a, g a)) := by
  intro l
  induction l with
  | nil => rfl
  | cons x rest ih => simp [ih]

theorem map_snd_zip_map {α β γ : Type} (g : β → γ) :
    ∀ (l₁ : List α) (l₂ : List β), l₂.length ≤ l₁.length →
      (l₁.zip l₂).map (fun p => g p.2) = l₂.map g := by
  intro l₁
  induction l₁ with
  | nil =>
      intro l₂ h
      have : l₂ = [] := List.eq_nil_of_length_eq_zero (by simpa using h)
      subst this
      rfl
  | cons x rest ih =>
      intro l₂ h
      cases l₂ with
      | nil => rfl
      | cons y rest2 =>
          simp only [List.zip_cons_cons, List.map_cons]
          rw [ih rest2 (by simpa using h)]

theorem perm_of_length (L : List (List Nat)) : (perm_of L).length = L.length := by
  rw [perm_of, List.length_map]

theorem length_insertionSort_eq {α : Type} (r : α → α → Prop) [DecidableRel r]
    (l : List α) : (l.insertionSort r).length = l.length :=
  (List.perm_insertionSort r l).length_eq

theorem mem_insertionSort_iff {α : Type} (r : α → α → Prop) [DecidableRel r]
    (l : List α) (a : α) : a ∈ l.insertionSort r ↔ a ∈ l :=
  (List.perm_insertionSort r l).mem_iff

theorem map_sort_subs_eq_self (c : List Element) (hinner : innerSorted c) :
    c.map sort_subs_el = c := by
  have h : ∀ e ∈ c, sort_subs_el e = e := by
    intro e he
    rw [sort_subs_el, List.Sorted.insertionSort_eq (hinner e he)]
  calc c.map sort_subs_el = c.map id := List.map_congr_left h
    _ = c := List.map_id c

theorem stableVal_of_perm (cur : List Element) (hinner : innerSorted cur)
    (c : List Element)
    (hc : c.map Element.subs = (cur.map Element.subs).insertionSort (· ≤ ·))
    (v : Nat) : stableVal c ((perm_of (cur.map Element.subs)).getD v 0) := by
  have hSsorted : List.Sorted (· ≤ ·) ((cur.map Element.subs).insertionSort (· ≤ ·)) :=
    List.sorted_insertionSort (· ≤ ·) (cur.map Element.subs)
  have hSS : ((cur.map Element.subs).insertionSort (· ≤ ·)).insertionSort (· ≤ ·) =
      (cur.map Element.subs).insertionSort (· ≤ ·) :=
    List.Sorted.insertionSort_eq hSsorted
  rw [stableVal, hc, perm_of, hSS]
  set L := cur.map Element.subs with hL
  set S := L.insertionSort (· ≤ ·) with hS
  by_cases hv : v < L.length
  · have hvp : v < (perm_of L).length := by rw [perm_of_length]; exact hv
    have hgetperm : (perm_of L).getD v 0 = position_of (L.getD v []) S := by
      rw [perm_of, List.getD_eq_getElem?_getD, List.getElem?_map,
        List.getElem?_eq_getElem hv]
      rw [List.getD_eq_getElem?_getD, List.getElem?_eq_getElem hv]
      rfl
    rw [hgetperm]
    have hmemL : L.getD v [] ∈ L := by
      rw [List.getD_eq_getElem?_getD, List.getElem?_eq_getElem hv]
      exact List.getElem_mem hv
    have hmemS : L.getD v [] ∈ S := (mem_insertionSort_iff _ L _).mpr hmemL
    set u := position_of (L.getD v []) S with hu
    have hult : u < S.length := position_of_lt_length _ S hmemS
    have hSu : S.getD u [] = L.getD v [] := position_of_getD _ S hmemS
    have : (S.map (fun s => position_of s S)).getD u 0 = position_of (S.getD u []) S := by
      rw [List.getD_eq_getElem?_getD, List.getElem?_map,
        List.getElem?_eq_getElem hult]
      rw [List.getD_eq_getElem?_getD, List.getElem?_eq_getElem hult]
      rfl
    rw [this, hSu]
  · have hout : (perm_of L).getD v 0 = 0 := by
      rw [List.getD_eq_getElem?_getD, List.getElem?_eq_none]
      · rfl
      · rw [perm_of_length]
        omega
    rw [hout]
    cases hScase : S with
    | nil => rfl
    | cons s0 S2 =>
        rw [List.map_cons]
        show position_of s0 (s0 :: S2) = 0
        rw [position_of, if_pos rfl]

theorem strong_step_fix (cur next : List Element) (hcur : goodCur cur)
    (hnext : goodNext cur next) : strong_step cur next = (cur, next) := by
  obtain ⟨hsort, hinner⟩ := hcur
  have hS : (cur.map Element.subs).insertionSort (· ≤ ·) = cur.map Element.subs :=
    List.Sorted.insertionSort_eq hsort
  have h1 : (cur.zip ((cur.map Element.subs).insertionSort (· ≤ ·))).map
      (fun es => Element.mk (es.2.insertionSort (· ≤ ·)) es.1.sups) = cur := by
    rw [hS, zip_self_map Element.subs cur, List.map_map]
    have h : ∀ e ∈ cur,
        ((fun es : Element × List Nat => Element.mk (es.2.insertionSort (· ≤ ·)) es.1.sups) ∘
          (fun a => (a, a.subs))) e = e := by
      intro e he
      show Element.mk (e.subs.insertionSort (· ≤ ·)) e.sups = e
      rw [List.Sorted.insertionSort_eq (hinner e he)]
    calc cur.map _ = cur.map id := List.map_congr_left h
      _ = cur := List.map_id cur
  have h2 : next.map (fun e => Element.sortEl (Element.mk
      (e.subs.map (fun v => (perm_of (cur.map Element.subs)).getD v 0)) [])) = next := by
    have h : ∀ e ∈ next, Element.sortEl (Element.mk
        (e.subs.map (fun v => (perm_of (cur.map Element.subs)).getD v 0)) []) = e := by
      intro e he
      obtain ⟨hesort, hesups, hestable⟩ := hnext e he
      have hsubs : e.subs.map (fun v => (perm_of (cur.map Element.subs)).getD v 0) =
          e.subs := by
        have hid : ∀ v ∈ e.subs,
            (perm_of (cur.map Element.subs)).getD v 0 = id v := fun v hv => hestable v hv
        calc e.subs.map _ = e.subs.map id := List.map_congr_left hid
          _ = e.subs := List.map_id e.subs
      rw [hsubs, Element.sortEl]
      show Element.mk (e.subs.insertionSort (· ≤ ·)) (([] : List Nat).insertionSort (· ≤ ·)) = e
      rw [List.Sorted.insertionSort_eq hesort]
      show Element.mk e.subs [] = e
      rw [← hesups]
    calc next.map _ = next.map id := List.map_congr_left h
      _ = next := List.map_id next
  show ((cur.zip ((cur.map Element.subs).insertionSort (· ≤ ·))).map
      (fun es => Element.mk (es.2.insertionSort (· ≤ ·)) es.1.sups),
    next.map (fun e => Element.sortEl (Element.mk
      (e.subs.map (fun v => (perm_of (cur.map Element.subs)).getD v 0)) []))) =
    (cur, next)
  rw [h1, h2]

theorem strong_step_inv (cur next : List Element) (hinner : innerSorted cur) :
    (strong_step cur next).1.map Element.subs =
      (cur.map Element.subs).insertionSort (· ≤ ·) ∧
    goodCur (strong_step cur next).1 ∧
    goodNext (strong_step cur next).1 (strong_step cur next).2 := by
  have hc1 : (strong_step cur next).1 =
      (cur.zip ((cur.map Element.subs).insertionSort (· ≤ ·))).map
        (fun es => Element.mk (es.2.insertionSort (· ≤ ·)) es.1.sups) := rfl
  have hc2 : (strong_step cur next).2 =
      next.map (fun e => Element.sortEl (Element.mk
        (e.subs.map (fun v => (perm_of (cur.map Element.subs)).getD v 0)) [])) := rfl
  have hSmem : ∀ s ∈ (cur.map Element.subs).insertionSort (· ≤ ·),
      List.Sorted (· ≤ ·) s := by
    intro s hs
    have : s ∈ cur.map Element.subs := (mem_insertionSort_iff _ _ s).mp hs
    rcases List.mem_map.mp this with ⟨e, he, rfl⟩
    exact hinner e he
  have hsubs : (strong_step cur next).1.map Element.subs =
      (cur.map Element.subs).insertionSort (· ≤ ·) := by
    rw [hc1, List.map_map]
    have hlen : ((cur.map Element.subs).insertionSort (· ≤ ·)).length ≤ cur.length := by
      rw [length_insertionSort_eq, List.length_map]
    have : (cur.zip ((cur.map Element.subs).insertionSort (· ≤ ·))).map
        ((fun e => e.subs) ∘ (fun es : Element × List Nat =>
          Element.mk (es.2.insertionSort (· ≤ ·)) es.1.sups)) =
        (cur.zip ((cur.map Element.subs).insertionSort (· ≤ ·))).map
        (fun es => es.2.insertionSort (· ≤ ·)) := rfl
    rw [this, map_snd_zip_map (fun s => s.insertionSort (· ≤ ·)) cur _ hlen]
    have h : ∀ s ∈ (cur.map Element.subs).insertionSort (· ≤ ·),
        s.insertionSort (· ≤ ·) = id s := by
      intro s hs
      show s.insertionSort (· ≤ ·) = s
      exact List.Sorted.insertionSort_eq (hSmem s hs)
    calc ((cur.map Element.subs).insertionSort (· ≤ ·)).map _ =
        ((cur.map Element.subs).insertionSort (· ≤ ·)).map id := List.map_congr_left h
      _ = (cur.map Element.subs).insertionSort (· ≤ ·) := List.map_id _
  refine ⟨hsubs, ⟨?_, ?_⟩, ?_⟩
  · rw [hsubs]
    exact List.sorted_insertionSort (· ≤ ·) (cur.map Element.subs)
  · intro e2 he2
    rw [hc1] at he2
    rcases List.mem_map.mp he2 with ⟨es, _, rfl⟩
    exact List.sorted_insertionSort (· ≤ ·) es.2
  · intro e2 he2
    rw [hc2] at he2
    rcases List.mem_map.mp he2 with ⟨e, he, rfl⟩
    refine ⟨List.sorted_insertionSort (· ≤ ·) _, rfl, ?_⟩
    intro v2 hv2
    rw [Element.sortEl] at hv2
    have hv2b : v2 ∈ e.subs.map (fun v => (perm_of (cur.map Element.subs)).getD v 0) := by
      simpa using (mem_insertionSort_iff (· ≤ ·) _ v2).mp hv2
    rcases List.mem_map.mp hv2b with ⟨v, _, rfl⟩
    exact stableVal_of_perm cur hinner (strong_step cur next).1 hsubs v

theorem strong_step_transfer (c m next2 : List Element)
    (hm_inner : innerSorted m)
    (hm : ∀ e ∈ m, e.sups = [] ∧ ∀ v ∈ e.subs, stableVal c v) :
    goodNext c (strong_step m next2).1 := by
  intro e2 he2
  have hc1 : (strong_step m next2).1 =
      (m.zip ((m.map Element.subs).insertionSort (· ≤ ·))).map
        (fun es => Element.mk (es.2.insertionSort (· ≤ ·)) es.1.sups) := rfl
  rw [hc1] at he2
  rcases List.mem_map.mp he2 with ⟨es, hes, rfl⟩
  have hmem := List.of_mem_zip hes
  refine ⟨List.sorted_insertionSort (· ≤ ·) es.2, (hm es.1 hmem.1).1, ?_⟩
  intro v hv
  have hv2 : v ∈ es.2 := (mem_insertionSort_iff (· ≤ ·) es.2 v).mp hv
  have hs2 : es.2 ∈ m.map Element.subs :=
    (mem_insertionSort_iff (· ≤ ·) (m.map Element.subs) es.2).mp hmem.2
  rcases List.mem_map.mp hs2 with ⟨e3, he3, heq⟩
  exact (hm e3 he3).2 v (heq ▸ hv2)

theorem strong_sweep_ne_nil (cur : List Element) (rest : List (List Element)) :
    strong_sweep cur rest ≠ [] := by
  cases rest with
  | nil => simp [strong_sweep]
  | cons n rest => simp [strong_sweep]

theorem sweep_fix :
    ∀ (rest : List (List Element)) (cur : List Element), innerSorted cur →
      ∀ (c : List Element) (t : List (List Element)),
        strong_sweep cur rest = c :: t →
        strong_sweep (c.map sort_subs_el) t = c :: t := by
  intro rest
  induction rest with
  | nil =>
      intro cur hinner c t h
      rw [strong_sweep] at h
      obtain ⟨rfl, rfl⟩ : cur = c ∧ [] = t := by
        have h1 := List.head_eq_of_cons_eq h
        have h2 := List.tail_eq_of_cons_eq h
        exact ⟨h1, h2⟩
      rw [map_sort_subs_eq_self cur hinner]
      rfl
  | cons n rest ih =>
      intro cur hinner c t h
      rw [strong_sweep] at h
      obtain ⟨hc, ht⟩ : (strong_step cur n).1 = c ∧
          strong_sweep (strong_step cur n).2 rest = t :=
        ⟨List.head_eq_of_cons_eq h, List.tail_eq_of_cons_eq h⟩
      obtain ⟨hsubs, hgoodc, hgoodn⟩ := strong_step_inv cur n hinner
      rw [hc] at hsubs hgoodc hgoodn
      have hm_inner : innerSorted (strong_step cur n).2 := by
        intro e he
        exact (hgoodn e he).1
      have hm_rest : ∀ e ∈ (strong_step cur n).2,
          e.sups = [] ∧ ∀ v ∈ e.subs, stableVal c v := by
        intro e he
        exact ⟨(hgoodn e he).2.1, (hgoodn e he).2.2⟩
      rw [map_sort_subs_eq_self c hgoodc.2]
      cases rest with
      | nil =>
          rw [strong_sweep] at ht
          subst ht
          show strong_sweep c [(strong_step cur n).2] = c :: [(strong_step cur n).2]
          rw [strong_sweep]
          rw [strong_step_fix c (strong_step cur n).2 hgoodc hgoodn]
          rfl
      | cons n2 rest2 =>
          rw [strong_sweep] at ht
          set m := (strong_step cur n).2 with hm
          set c2 := (strong_step m n2).1 with hc2
          set t2 := strong_sweep (strong_step m n2).2 rest2 with ht2
          subst ht
          show strong_sweep c (c2 :: t2) = c :: c2 :: t2
          have hgoodc2 : goodNext c c2 := strong_step_transfer c m n2 hm_inner hm_rest
          rw [strong_sweep]
          rw [strong_step_fix c c2 hgoodc hgoodc2]
          have hinner_c2 : innerSorted c2 := (strong_step_inv m n2 hm_inner).2.1.2
          have hstep : strong_sweep m (n2 :: rest2) = c2 :: t2 := by
            rw [strong_sweep]
          have := ih m hm_inner c2 t2 hstep
          rw [map_sort_subs_eq_self c2 hinner_c2] at this
          rw [this]

/-- C6: applying the strong canonicalization sort twice to any rank structure
yields the same result as applying it once. -/
theorem element_sort_strong_idempotent (r : Ranks) :
    element_sort_strong (element_sort_strong r) = element_sort_strong r := by
  match r with
  | [] => rfl
  | [r0] => rfl
  | [r0, r1] => rfl
  | r0 :: r1 :: r2 :: rest =>
      have hfirst : element_sort_strong (r0 :: r1 :: r2 :: rest) =
          r0 :: r1 :: strong_sweep (r2.map sort_subs_el) rest := rfl
      have hr2s : innerSorted (r2.map sort_subs_el) := by
        intro e he
        rcases List.mem_map.mp he with ⟨e0, _, rfl⟩
        exact List.sorted_insertionSort (· ≤ ·) e0.subs
      cases hsw : strong_sweep (r2.map sort_subs_el) rest with
      | nil => exact absurd hsw (strong_sweep_ne_nil _ _)
      | cons c t =>
          rw [hfirst, hsw]
          show r0 :: r1 :: strong_sweep (c.map sort_subs_el) t = r0 :: r1 :: c :: t
          rw [sweep_fix rest (r2.map sort_subs_el) hr2s c t hsw]

/-! ## C10: the generated-group iterator (`group/gen_iter.rs`) -/

/-- State of `GenIter` (gen_iter.rs:31-51): the generators, the lookup table
of element counts (`BTreeMap`, modelled as an association list with distinct
keys), the queue of unprocessed elements, and the index of the generator to
try next.  The element type is abstract; the floating-point fuzzy comparison
wrapper is modelled as decidable equality. -/
structure GenIterState (T : Type) where
  gens : List T
  elements : List (T × Nat)
  queue : List T
  gen_idx : Nat

/-- Lookup in the association list modelling the `BTreeMap`. -/
def map_get {T : Type} [DecidableEq T] : List (T × Nat) → T → Option Nat
  | [], _ => none
  | (k, v) :: rest, x => if k = x then some v else map_get rest x

/-- Insert or overwrite a key. -/
def map_insert {T : Type} [DecidableEq T] : List (T × Nat) → T → Nat → List (T × Nat)
  | [], x, v => [(x, v)]
  | (k, w) :: rest, x, v =>
      if k = x then (k, v) :: rest else (k, w) :: map_insert rest x v

/-- Remove a key (`entry.remove_entry()`). -/
def map_remove {T : Type} [DecidableEq T] : List (T × Nat) → T → List (T × Nat)
  | [], _ => []
  | (k, w) :: rest, x => if k = x then rest else (k, w) :: map_remove rest x

/-- `GenIter::insert` (gen_iter.rs:76-102): a vacant entry is recorded with
count 1 and enqueued; an occupied one is bumped, or removed when this is the
last time the element will be found; the call reports a new element exactly
for the vacant case and for the specially seeded identity (count 0). -/
def gi_insert {T : Type} [DecidableEq T] (gens_len : Nat)
    (elements : List (T × Nat)) (queue : List T) (el : T) :
    List (T × Nat) × List T × Bool :=
  match map_get elements el with
  | none => (map_insert elements el 1, queue ++ [el], true)
  | some value =>
      if value ≠ gens_len - 1 then
        (map_insert elements el (value + 1), queue, decide (value = 0))
      else
        (map_remove elements el, queue, decide (value = 0))

/-- `GenIter::try_next` combined with `next_el_gen` (gen_iter.rs:106-147):
with an empty queue the iteration is over; otherwise the front element is
multiplied by the current generator, the generator index advances (popping
the front and wrapping to 0 after the last generator), and the product is
inserted; the second component is the yielded element for `GroupNext::New`
and `none` for `GroupNext::Repeat`.  (`s.gens.getD s.gen_idx el` is in range
whenever the Rust code does not panic; the default is never used under the
iterator's invariant.) -/
def gi_try_next {T : Type} [DecidableEq T] (mul : T → T → T) (s : GenIterState T) :
    Option (GenIterState T × Option T) :=
  match s.queue with
  | [] => none
  | el :: qrest =>
      let gen := s.gens.getD s.gen_idx el
      let pop := s.gen_idx + 1 = s.gens.length
      let qmid := if pop then qrest else s.queue
      let gen_idx2 := if pop then 0 else s.gen_idx + 1
      let new_el := mul el gen
      let r := gi_insert s.gens.length s.elements qmid new_el
      some ({ gens := s.gens, elements := r.1, queue := r.2.1, gen_idx := gen_idx2 },
            if r.2.2 then some new_el else none)

/-- `Iterator::next` in a loop (gen_iter.rs:162-174): collect the elements
yielded over at most `fuel` calls of `try_next`. -/
def gi_run {T : Type} [DecidableEq T] (mul : T → T → T) : Nat → GenIterState T → List T
  | 0, _ => []
  | fuel + 1, s =>
      match gi_try_next mul s with
      | none => []
      | some (s2, none) => gi_run mul fuel s2
      | some (s2, some el) => el :: gi_run mul fuel s2

/-- `GenIter::new` (gen_iter.rs:55-73): the queue holds the identity, and the
lookup table says the identity has been found zero times. -/
def gi_new {T : Type} (gens : List T) (one : T) : GenIterState T :=
  { gens := gens, elements := [(one, 0)], queue := [one], gen_idx := 0 }

/-- Number of already-processed (element, generator-index) pairs whose product
is `g`: fully processed elements are in `popped`; the queue front has been
processed with the generators before `gidx`. -/
def prodCount {T : Type} [DecidableEq T] (mul : T → T → T) (gens : List T) (one : T)
    (popped : List T) (front? : Option T) (gidx : Nat) (g : T) : Nat :=
  ∑ i ∈ Finset.range gens.length,
    ((popped ++ (if i < gidx then front?.toList else [])).filter
      (fun y => decide (mul y (gens.getD i one) = g))).length

theorem map_get_insert_self {T : Type} [DecidableEq T] :
    ∀ (m : List (T × Nat)) (k : T) (v : Nat), map_get (map_insert m k v) k = some v := by
  intro m k v
  induction m with
  | nil => simp [map_insert, map_get]
  | cons p rest ih =>
      rcases p with ⟨k2, w⟩
      rw [map_insert]
      by_cases hk : k2 = k
      · rw [if_pos hk, map_get, if_pos hk]
      · rw [if_neg hk, map_get, if_neg hk]
        exact ih

theorem map_get_insert_ne {T : Type} [DecidableEq T] :
    ∀ (m : List (T × Nat)) (k x : T) (v : Nat), k ≠ x →
      map_get (map_insert m k v) x = map_get m x := by
  intro m k x v hkx
  induction m with
  | nil => simp [map_insert, map_get, hkx]
  | cons p rest ih =>
      rcases p with ⟨k2, w⟩
      rw [map_insert]
      by_cases hk : k2 = k
      · rw [if_pos hk, map_get, map_get]
        subst hk
        rw [if_neg hkx, if_neg hkx]
      · rw [if_neg hk, map_get, map_get]
        by_cases hx : k2 = x
        · rw [if_pos hx, if_pos hx]
        · rw [if_neg hx, if_neg hx]
          exact ih

theorem map_get_remove_self {T : Type} [DecidableEq T] :
    ∀ (m : List (T × Nat)) (k : T), (m.map Prod.fst).Nodup →
      map_get (map_remove m k) k = none := by
  intro m k
  induction m with
  | nil => intro _; rfl
  | cons p rest ih =>
      rcases p with ⟨k2, w⟩
      intro hnd
      rw [List.map_cons, List.nodup_cons] at hnd
      rw [map_remove]
      by_cases hk : k2 = k
      · rw [if_pos hk]
        subst hk
        clear ih
        induction rest with
        | nil => rfl
        | cons q rest2 ih2 =>
            rcases q with ⟨k3, u⟩
            rw [map_get]
            have hk3 : k3 ≠ k2 := by
              intro h
              exact hnd.1 (by simp [h])
            rw [if_neg hk3]
            refine ih2 ⟨?_, hnd.2.of_cons⟩
            intro hmem
            exact hnd.1 (List.mem_cons_of_mem _ hmem)
      · rw [if_neg hk, map_get, if_neg hk]
        exact ih hnd.2

theorem map_get_remove_ne {T : Type} [DecidableEq T] :
    ∀ (m : List (T × Nat)) (k x : T), k ≠ x →
      map_get (map_remove m k) x = map_get m x := by
  intro m k x hkx
  induction m with
  | nil => rfl
  | cons p rest ih =>
      rcases p with ⟨k2, w⟩
      rw [map_remove]
      by_cases hk : k2 = k
      · rw [if_pos hk, map_get]
        subst hk
        rw [if_neg hkx]
      · rw [if_neg hk, map_get, map_get]
        by_cases hx : k2 = x
        · rw [if_pos hx, if_pos hx]
        · rw [if_neg hx, if_neg hx]
          exact ih

theorem map_insert_keys_nodup {T : Type} [DecidableEq T] :
    ∀ (m : List (T × Nat)) (k : T) (v : Nat), (m.map Prod.fst).Nodup →
      ((map_insert m k v).map Prod.fst).Nodup := by
  intro m k v
  induction m with
  | nil => intro _; simp [map_insert]
  | cons p rest ih =>
      rcases p with ⟨k2, w⟩
      intro hnd
      rw [List.map_cons, List.nodup_cons] at hnd
      rw [map_insert]
      by_cases hk : k2 = k
      · rw [if_pos hk, List.map_cons, List.nodup_cons]
        exact hnd
      · rw [if_neg hk, List.map_cons, List.nodup_cons]
        constructor
        · intro hmem
          -- k2 is a key of map_insert rest k v: either a key of rest or k
          have : ∀ (rest : List (T × Nat)), k2 ∉ rest.map Prod.fst → k2 ≠ k →
              k2 ∉ (map_insert rest k v).map Prod.fst := by
            intro rest2
            induction rest2 with
            | nil =>
                intro _ hne h
                simp [map_insert] at h
                exact hne h
            | cons q rest3 ih3 =>
                rcases q with ⟨k3, u⟩
                intro hmem2 hne h
                rw [map_insert] at h
                by_cases hk3 : k3 = k
                · rw [if_pos hk3] at h
                  rw [List.map_cons] at h
                  rcases List.mem_cons.mp h with rfl | h2
                  · exact hmem2 (by simp)
                  · exact hmem2 (by simp [h2])
                · rw [if_neg hk3] at h
                  rw [List.map_cons] at h
                  rcases List.mem_cons.mp h with rfl | h2
                  · exact hmem2 (by simp)
                  · refine ih3 ?_ hne h2
                    intro hmem3
                    exact hmem2 (List.mem_cons_of_mem _ hmem3)
          exact this rest hnd.1 hk hmem
        · exact ih hnd.2

theorem map_remove_keys_sublist {T : Type} [DecidableEq T] :
    ∀ (m : List (T × Nat)) (k : T),
      ((map_remove m k).map Prod.fst).Sublist (m.map Prod.fst) := by
  intro m k
  induction m with
  | nil => exact List.Sublist.refl _
  | cons p rest ih =>
      rcases p with ⟨k2, w⟩
      rw [map_remove]
      by_cases hk : k2 = k
      · rw [if_pos hk, List.map_cons]
        exact (List.Sublist.refl _).cons _
      · rw [if_neg hk, List.map_cons, List.map_cons]
        exact List.cons_sublist_cons.mpr ih

theorem length_filter_le_one {α : Type} (l : List α) (p : α → Bool)
    (hnd : l.Nodup)
    (heq : ∀ a ∈ l, ∀ b ∈ l, p a = true → p b = true → a = b) :
    (l.filter p).length ≤ 1 := by
  rcases hf : l.filter p with _ | ⟨a, rest⟩
  · simp
  · rcases rest with _ | ⟨b, rest2⟩
    · simp
    · exfalso
      have hfn : (l.filter p).Nodup := hnd.filter p
      rw [hf] at hfn
      have ha : a ∈ l.filter p := by rw [hf]; simp
      have hb : b ∈ l.filter p := by rw [hf]; simp
      have hab : a = b := heq a (List.mem_of_mem_filter ha) b
        (List.mem_of_mem_filter hb) (List.of_mem_filter ha) (List.of_mem_filter hb)
      rw [List.nodup_cons] at hfn
      exact hfn.1 (hab ▸ List.mem_cons_self b rest2)

theorem prodCount_le {T : Type} [DecidableEq T] (mul : T → T → T) (gens : List T)
    (one : T) (hcancel : ∀ a b c : T, mul a c = mul b c → a = b)
    (popped : List T) (front? : Option T) (gidx : Nat)
    (hnd : (popped ++ front?.toList).Nodup) (g : T) :
    prodCount mul gens one popped front? gidx g ≤ gens.length := by
  rw [prodCount]
  have h1 : ∀ i ∈ Finset.range gens.length,
      ((popped ++ (if i < gidx then front?.toList else [])).filter
        (fun y => decide (mul y (gens.getD i one) = g))).length ≤ 1 := by
    intro i _
    apply length_filter_le_one
    · refine List.Nodup.sublist ?_ hnd
      apply List.Sublist.append_left
      by_cases h : i < gidx
      · rw [if_pos h]
      · rw [if_neg h]
        exact List.nil_sublist _
    · intro a _ b _ hpa hpb
      rw [decide_eq_true_eq] at hpa hpb
      exact hcancel a b _ (hpa.trans hpb.symm)
  calc ∑ i ∈ Finset.range gens.length,
      ((popped ++ (if i < gidx then front?.toList else [])).filter
        (fun y => decide (mul y (gens.getD i one) = g))).length
      ≤ ∑ _i ∈ Finset.range gens.length, 1 := Finset.sum_le_sum h1
    _ = gens.length := by simp

theorem length_filter_append_singleton {α : Type} (l : List α) (x : α) (p : α → Bool) :
    ((l ++ [x]).filter p).length =
      (l.filter p).length + (if p x = true then 1 else 0) := by
  rw [List.filter_append, List.length_append]
  congr 1
  by_cases h : p x = true
  · simp [List.filter, h]
  · simp [List.filter, h]

theorem sum_shift_at {n k d : Nat} (f1 f2 : Nat → Nat) (hk : k < n)
    (h : ∀ i ∈ Finset.range n, f2 i = f1 i + (if i = k then d else 0)) :
    ∑ i ∈ Finset.range n, f2 i = (∑ i ∈ Finset.range n, f1 i) + d := by
  rw [Finset.sum_congr rfl h, Finset.sum_add_distrib]
  congr 1
  rw [Finset.sum_ite_eq' (Finset.range n) k (fun _ => d)]
  simp [Finset.mem_range.mpr hk]

theorem getD_eq_getD_of_lt {α : Type} (l : List α) (i : Nat) (d d2 : α)
    (h : i < l.length) : l.getD i d = l.getD i d2 := by
  rw [List.getD_eq_getElem?_getD, List.getD_eq_getElem?_getD,
    List.getElem?_eq_getElem h]
  rfl

theorem prodCount_nopop_step {T : Type} [DecidableEq T] (mul : T → T → T)
    (gens : List T) (one : T) (popped : List T) (x : T) (gidx : Nat)
    (hgidx : gidx < gens.length) (g : T) :
    prodCount mul gens one popped (some x) (gidx + 1) g =
      prodCount mul gens one popped (some x) gidx g +
        (if mul x (gens.getD gidx one) = g then 1 else 0) := by
  rw [prodCount, prodCount]
  apply sum_shift_at _ _ hgidx
  intro i _
  by_cases hik : i = gidx
  · subst hik
    rw [if_pos rfl, if_pos (by omega), if_neg (by omega), List.append_nil]
    show ((popped ++ [x]).filter _).length = _
    rw [length_filter_append_singleton]
    congr 1
    by_cases hx : mul x (gens.getD i one) = g
    · simp [hx]
    · simp [hx]
  · rw [if_neg hik]
    by_cases hi2 : i < gidx
    · rw [if_pos hi2, if_pos (by omega)]
      omega
    · rw [if_neg hi2, if_neg (by omega)]
      omega

theorem prodCount_pop_step {T : Type} [DecidableEq T] (mul : T → T → T)
    (gens : List T) (one : T) (popped : List T) (x : T)
    (hlen : 0 < gens.length) (front2 : Option T) (g : T) :
    prodCount mul gens one (popped ++ [x]) front2 0 g =
      prodCount mul gens one popped (some x) (gens.length - 1) g +
        (if mul x (gens.getD (gens.length - 1) one) = g then 1 else 0) := by
  rw [prodCount, prodCount]
  apply sum_shift_at _ _ (by omega : gens.length - 1 < gens.length)
  intro i hi
  rw [Finset.mem_range] at hi
  by_cases hik : i = gens.length - 1
  · subst hik
    rw [if_pos rfl, if_neg (by omega), if_neg (by omega)]
    rw [List.append_nil, List.append_nil]
    rw [length_filter_append_singleton]
    congr 1
    by_cases hx : mul x (gens.getD (gens.length - 1) one) = g
    · simp [hx]
    · simp [hx]
  · rw [if_neg hik]
    have h2 : i < gens.length - 1 := by omega
    rw [if_neg (by omega : ¬ i < 0), if_pos h2]
    rw [List.append_nil]
    show ((popped ++ [x]).filter _).length = ((popped ++ [x]).filter _).length + 0
    omega

/-- The iterator invariant tying a reachable `GenIter` state to the ghost
history: `popped` are the fully processed queue elements, `yielded` the
elements returned as `GroupNext::New` so far.  Writing `P g` for the number
of already-processed (element, generator) pairs whose product is `g`
(`prodCount`): an element is yielded exactly once it has been produced, the
lookup table stores `P g` for present keys, and an absent key means `g` was
never produced (and is not the seeded identity) or was produced the maximal
`gens.length` times and removed. -/
def ginv {T : Type} [DecidableEq T] (mul : T → T → T) (gens : List T) (one : T)
    (popped yielded : List T) (s : GenIterState T) : Prop :=
  s.gens = gens ∧
  s.gen_idx < gens.length ∧
  (s.elements.map Prod.fst).Nodup ∧
  (popped ++ s.queue).Nodup ∧
  yielded.Nodup ∧
  (∀ g : T, g ∈ yielded ↔
    1 ≤ prodCount mul gens one popped s.queue.head? s.gen_idx g) ∧
  (∀ x ∈ popped ++ s.queue, x = one ∨
    1 ≤ prodCount mul gens one popped s.queue.head? s.gen_idx x) ∧
  (∀ g c, map_get s.elements g = some c →
    c = prodCount mul gens one popped s.queue.head? s.gen_idx g) ∧
  (∀ g, map_get s.elements g = none →
    (prodCount mul gens one popped s.queue.head? s.gen_idx g = 0 ∧ g ≠ one) ∨
    prodCount mul gens one popped s.queue.head? s.gen_idx g = gens.length)

theorem gi_try_next_nil {T : Type} [DecidableEq T] (mul : T → T → T)
    (s : GenIterState T) (h : s.queue = []) : gi_try_next mul s = none := by
  unfold gi_try_next
  rw [h]

theorem gi_try_next_cons {T : Type} [DecidableEq T] (mul : T → T → T)
    (s : GenIterState T) (el : T) (qrest : List T) (h : s.queue = el :: qrest) :
    gi_try_next mul s =
      some ({ gens := s.gens,
              elements := (gi_insert s.gens.length s.elements
                (if s.gen_idx + 1 = s.gens.length then qrest else s.queue)
                (mul el (s.gens.getD s.gen_idx el))).1,
              queue := (gi_insert s.gens.length s.elements
                (if s.gen_idx + 1 = s.gens.length then qrest else s.queue)
                (mul el (s.gens.getD s.gen_idx el))).2.1,
              gen_idx := if s.gen_idx + 1 = s.gens.length then 0
                else s.gen_idx + 1 },
            if (gi_insert s.gens.length s.elements
                (if s.gen_idx + 1 = s.gens.length then qrest else s.queue)
                (mul el (s.gens.getD s.gen_idx el))).2.2
            then some (mul el (s.gens.getD s.gen_idx el)) else none) := by
  unfold gi_try_next
  rw [h]

theorem gi_insert_vacant {T : Type} [DecidableEq T] (n : Nat)
    (elements : List (T × Nat)) (queue : List T) (el : T)
    (h : map_get elements el = none) :
    gi_insert n elements queue el =
      (map_insert elements el 1, queue ++ [el], true) := by
  unfold gi_insert
  rw [h]

theorem gi_insert_bump {T : Type} [DecidableEq T] (n : Nat)
    (elements : List (T × Nat)) (queue : List T) (el : T) (v : Nat)
    (h : map_get elements el = some v) (hv : v ≠ n - 1) :
    gi_insert n elements queue el =
      (map_insert elements el (v + 1), queue, decide (v = 0)) := by
  unfold gi_insert
  rw [h]
  show (if v ≠ n - 1 then (map_insert elements el (v + 1), queue, decide (v = 0))
    else (map_remove elements el, queue, decide (v = 0))) = _
  rw [if_pos hv]

theorem gi_insert_remove {T : Type} [DecidableEq T] (n : Nat)
    (elements : List (T × Nat)) (queue : List T) (el : T) (v : Nat)
    (h : map_get elements el = some v) (hv : v = n - 1) :
    gi_insert n elements queue el =
      (map_remove elements el, queue, decide (v = 0)) := by
  unfold gi_insert
  rw [h]
  show (if v ≠ n - 1 then (map_insert elements el (v + 1), queue, decide (v = 0))
    else (map_remove elements el, queue, decide (v = 0))) = _
  rw [if_neg (not_not.mpr hv)]

theorem ginv_init {T : Type} [DecidableEq T] (mul : T → T → T) (gens : List T)
    (one : T) (hlen : 0 < gens.length) :
    ginv mul gens one [] [] (gi_new gens one) := by
  have hP : ∀ g : T, prodCount mul gens one [] (some one) 0 g = 0 := by
    intro g
    rw [prodCount]
    apply Finset.sum_eq_zero
    intro i _
    rw [if_neg (by omega : ¬ i < 0)]
    simp
  refine ⟨rfl, hlen, by simp [gi_new], by simp [gi_new], List.nodup_nil,
    ?_, ?_, ?_, ?_⟩
  · intro g
    show g ∈ ([] : List T) ↔ 1 ≤ prodCount mul gens one [] (some one) 0 g
    rw [hP g]
    simp
  · intro x hx
    left
    simpa [gi_new] using hx
  · intro g c hgc
    have h2 : (if one = g then (some 0 : Option Nat) else none) = some c := hgc
    show c = prodCount mul gens one [] (some one) 0 g
    rw [hP g]
    by_cases h1 : one = g
    · rw [if_pos h1] at h2
      exact (Option.some.inj h2).symm
    · rw [if_neg h1] at h2
      exact absurd h2 (by simp)
  · intro g hg
    have h2 : (if one = g then (some 0 : Option Nat) else none) = none := hg
    left
    refine ⟨hP g, ?_⟩
    intro h1
    rw [if_pos h1.symm] at h2
    exact absurd h2 (by simp)

theorem ginv_assemble {T : Type} [DecidableEq T] (mul : T → T → T) (gens : List T)
    (one : T) (hlen : 0 < gens.length)
    (hcancel : ∀ a b c : T, mul a c = mul b c → a = b)
    (popped yielded : List T) (elements : List (T × Nat)) (el : T)
    (qrest : List T) (gidx : Nat) (new_el : T) (popped2 qmid : List T)
    (gidx2 : Nat) (hgidx2 : gidx2 < gens.length)
    (hknd : (elements.map Prod.fst).Nodup)
    (hqnd : (popped ++ el :: qrest).Nodup)
    (hynd : yielded.Nodup)
    (hyiff : ∀ g : T, g ∈ yielded ↔
      1 ≤ prodCount mul gens one popped (some el) gidx g)
    (hmem : ∀ x ∈ popped ++ el :: qrest, x = one ∨
      1 ≤ prodCount mul gens one popped (some el) gidx x)
    (hmc1 : ∀ g c, map_get elements g = some c →
      c = prodCount mul gens one popped (some el) gidx g)
    (hmc2 : ∀ g, map_get elements g = none →
      (prodCount mul gens one popped (some el) gidx g = 0 ∧ g ≠ one) ∨
      prodCount mul gens one popped (some el) gidx g = gens.length)
    (hsame : popped2 ++ qmid = popped ++ el :: qrest)
    (hP2 : ∀ queue2 : List T, (queue2 = qmid ∨ queue2 = qmid ++ [new_el]) →
      ∀ g : T, prodCount mul gens one popped2 queue2.head? gidx2 g =
        prodCount mul gens one popped (some el) gidx g +
          (if new_el = g then 1 else 0)) :
    ginv mul gens one popped2
      (yielded ++ (if (gi_insert gens.length elements qmid new_el).2.2
        then [new_el] else []))
      { gens := gens,
        elements := (gi_insert gens.length elements qmid new_el).1,
        queue := (gi_insert gens.length elements qmid new_el).2.1,
        gen_idx := gidx2 } := by
  have hqnd2 : (popped2 ++ qmid).Nodup := by
    rw [hsame]
    exact hqnd
  have hndf : (popped2 ++ qmid.head?.toList).Nodup := by
    refine List.Nodup.sublist ?_ hqnd2
    refine List.Sublist.append_left ?_ popped2
    cases qmid with
    | nil => exact List.nil_sublist _
    | cons a t =>
        show [a].Sublist (a :: t)
        exact List.cons_sublist_cons.mpr (List.nil_sublist t)
  have hQle : ∀ g : T, prodCount mul gens one popped (some el) gidx g +
      (if new_el = g then 1 else 0) ≤ gens.length := by
    intro g
    rw [← hP2 qmid (Or.inl rfl) g]
    exact prodCount_le mul gens one hcancel popped2 qmid.head? gidx2 hndf g
  cases hg : map_get elements new_el with
  | none =>
      rw [gi_insert_vacant gens.length elements qmid new_el hg]
      rcases hmc2 new_el hg with ⟨hP0, hne1⟩ | hPfull
      · have hnotin : new_el ∉ popped ++ el :: qrest := by
          intro hin
          rcases hmem new_el hin with h1 | h1
          · exact hne1 h1
          · rw [hP0] at h1
            omega
        have hnotyield : new_el ∉ yielded := by
          intro hin
          have h1 := (hyiff new_el).mp hin
          rw [hP0] at h1
          omega
        have h4 : (popped2 ++ (qmid ++ [new_el])).Nodup := by
          rw [← List.append_assoc]
          refine List.Nodup.append hqnd2 (List.nodup_singleton _) ?_
          intro a ha hb
          rw [List.mem_singleton] at hb
          subst hb
          rw [hsame] at ha
          exact hnotin ha
        have h5 : (yielded ++ [new_el]).Nodup := by
          refine List.Nodup.append hynd (List.nodup_singleton _) ?_
          intro a ha hb
          rw [List.mem_singleton] at hb
          subst hb
          exact hnotyield ha
        have h6 : ∀ g : T, g ∈ yielded ++ [new_el] ↔
            1 ≤ prodCount mul gens one popped2 (qmid ++ [new_el]).head? gidx2 g := by
          intro g
          rw [hP2 (qmid ++ [new_el]) (Or.inr rfl) g, List.mem_append,
            List.mem_singleton]
          by_cases hgn : new_el = g
          · subst hgn
            rw [if_pos rfl, hP0]
            simp
          · rw [if_neg hgn, Nat.add_zero]
            constructor
            · rintro (h | h)
              · exact (hyiff g).mp h
              · exact absurd h.symm hgn
            · intro h
              exact Or.inl ((hyiff g).mpr h)
        have h7 : ∀ x ∈ popped2 ++ (qmid ++ [new_el]), x = one ∨
            1 ≤ prodCount mul gens one popped2 (qmid ++ [new_el]).head? gidx2 x := by
          intro x hx
          rw [hP2 (qmid ++ [new_el]) (Or.inr rfl) x]
          rw [← List.append_assoc, List.mem_append, List.mem_singleton] at hx
          rcases hx with hx | hx
          · rw [hsame] at hx
            rcases hmem x hx with h1 | h1
            · exact Or.inl h1
            · right
              omega
          · subst hx
            right
            rw [if_pos rfl]
            omega
        have h8 : ∀ g c2, map_get (map_insert elements new_el 1) g = some c2 →
            c2 = prodCount mul gens one popped2 (qmid ++ [new_el]).head? gidx2 g := by
          intro g c2 hgc
          rw [hP2 (qmid ++ [new_el]) (Or.inr rfl) g]
          by_cases hgn : new_el = g
          · subst hgn
            rw [map_get_insert_self elements new_el 1] at hgc
            have h1 := Option.some.inj hgc
            rw [if_pos rfl, hP0]
            omega
          · rw [map_get_insert_ne elements new_el g 1 hgn] at hgc
            rw [if_neg hgn, Nat.add_zero]
            exact hmc1 g c2 hgc
        have h9 : ∀ g, map_get (map_insert elements new_el 1) g = none →
            (prodCount mul gens one popped2 (qmid ++ [new_el]).head? gidx2 g = 0 ∧
              g ≠ one) ∨
            prodCount mul gens one popped2 (qmid ++ [new_el]).head? gidx2 g =
              gens.length := by
          intro g hgo
          by_cases hgn : new_el = g
          · subst hgn
            rw [map_get_insert_self elements new_el 1] at hgo
            exact absurd hgo (by simp)
          · rw [map_get_insert_ne elements new_el g 1 hgn] at hgo
            rw [hP2 (qmid ++ [new_el]) (Or.inr rfl) g, if_neg hgn, Nat.add_zero]
            exact hmc2 g hgo
        exact ⟨rfl, hgidx2, map_insert_keys_nodup elements new_el 1 hknd,
          h4, h5, h6, h7, h8, h9⟩
      · exfalso
        have h1 := hQle new_el
        rw [if_pos rfl, hPfull] at h1
        omega
  | some c =>
      have hcP : c = prodCount mul gens one popped (some el) gidx new_el :=
        hmc1 new_el c hg
      by_cases hc : c ≠ gens.length - 1
      · rw [gi_insert_bump gens.length elements qmid new_el c hg hc]
        have h8 : ∀ g c2,
            map_get (map_insert elements new_el (c + 1)) g = some c2 →
            c2 = prodCount mul gens one popped2 qmid.head? gidx2 g := by
          intro g c2 hgc
          rw [hP2 qmid (Or.inl rfl) g]
          by_cases hgn : new_el = g
          · subst hgn
            rw [map_get_insert_self elements new_el (c + 1)] at hgc
            have h1 := Option.some.inj hgc
            rw [if_pos rfl, ← hcP]
            omega
          · rw [map_get_insert_ne elements new_el g (c + 1) hgn] at hgc
            rw [if_neg hgn, Nat.add_zero]
            exact hmc1 g c2 hgc
        have h9 : ∀ g, map_get (map_insert elements new_el (c + 1)) g = none →
            (prodCount mul gens one popped2 qmid.head? gidx2 g = 0 ∧ g ≠ one) ∨
            prodCount mul gens one popped2 qmid.head? gidx2 g = gens.length := by
          intro g hgo
          by_cases hgn : new_el = g
          · subst hgn
            rw [map_get_insert_self elements new_el (c + 1)] at hgo
            exact absurd hgo (by simp)
          · rw [map_get_insert_ne elements new_el g (c + 1) hgn] at hgo
            rw [hP2 qmid (Or.inl rfl) g, if_neg hgn, Nat.add_zero]
            exact hmc2 g hgo
        have h7 : ∀ x ∈ popped2 ++ qmid, x = one ∨
            1 ≤ prodCount mul gens one popped2 qmid.head? gidx2 x := by
          intro x hx
          rw [hP2 qmid (Or.inl rfl) x]
          rw [hsame] at hx
          rcases hmem x hx with h1 | h1
          · exact Or.inl h1
          · right
            omega
        by_cases hc0 : c = 0
        · have hP0 : prodCount mul gens one popped (some el) gidx new_el = 0 := by
            rw [← hcP, hc0]
          have hnotyield : new_el ∉ yielded := by
            intro hin
            have h1 := (hyiff new_el).mp hin
            rw [hP0] at h1
            omega
          have hrep : decide (c = 0) = true := decide_eq_true hc0
          rw [hrep]
          have h5 : (yielded ++ [new_el]).Nodup := by
            refine List.Nodup.append hynd (List.nodup_singleton _) ?_
            intro a ha hb
            rw [List.mem_singleton] at hb
            subst hb
            exact hnotyield ha
          have h6 : ∀ g : T, g ∈ yielded ++ [new_el] ↔
              1 ≤ prodCount mul gens one popped2 qmid.head? gidx2 g := by
            intro g
            rw [hP2 qmid (Or.inl rfl) g, List.mem_append, List.mem_singleton]
            by_cases hgn : new_el = g
            · subst hgn
              rw [if_pos rfl, hP0]
              simp
            · rw [if_neg hgn, Nat.add_zero]
              constructor
              · rintro (h | h)
                · exact (hyiff g).mp h
                · exact absurd h.symm hgn
              · intro h
                exact Or.inl ((hyiff g).mpr h)
          exact ⟨rfl, hgidx2, map_insert_keys_nodup elements new_el (c + 1) hknd,
            hqnd2, h5, h6, h7, h8, h9⟩
        · have hrep : decide (c = 0) = false := decide_eq_false hc0
          rw [hrep]
          have h5 : (yielded ++ ([] : List T)).Nodup := by
            rw [List.append_nil]
            exact hynd
          have h6 : ∀ g : T, g ∈ yielded ++ ([] : List T) ↔
              1 ≤ prodCount mul gens one popped2 qmid.head? gidx2 g := by
            intro g
            rw [List.append_nil, hP2 qmid (Or.inl rfl) g]
            by_cases hgn : new_el = g
            · subst hgn
              rw [if_pos rfl]
              constructor
              · intro _
                omega
              · intro _
                apply (hyiff new_el).mpr
                omega
            · rw [if_neg hgn, Nat.add_zero]
              exact hyiff g
          exact ⟨rfl, hgidx2, map_insert_keys_nodup elements new_el (c + 1) hknd,
            hqnd2, h5, h6, h7, h8, h9⟩
      · have hceq : c = gens.length - 1 := not_not.mp hc
        rw [gi_insert_remove gens.length elements qmid new_el c hg hceq]
        have h3 : ((map_remove elements new_el).map Prod.fst).Nodup :=
          List.Nodup.sublist (map_remove_keys_sublist elements new_el) hknd
        have h8 : ∀ g c2, map_get (map_remove elements new_el) g = some c2 →
            c2 = prodCount mul gens one popped2 qmid.head? gidx2 g := by
          intro g c2 hgc
          by_cases hgn : new_el = g
          · subst hgn
            rw [map_get_remove_self elements new_el hknd] at hgc
            exact absurd hgc (by simp)
          · rw [map_get_remove_ne elements new_el g hgn] at hgc
            rw [hP2 qmid (Or.inl rfl) g, if_neg hgn, Nat.add_zero]
            exact hmc1 g c2 hgc
        have h9 : ∀ g, map_get (map_remove elements new_el) g = none →
            (prodCount mul gens one popped2 qmid.head? gidx2 g = 0 ∧ g ≠ one) ∨
            prodCount mul gens one popped2 qmid.head? gidx2 g = gens.length := by
          intro g hgo
          by_cases hgn : new_el = g
          · subst hgn
            right
            rw [hP2 qmid (Or.inl rfl) new_el, if_pos rfl, ← hcP]
            omega
          · rw [map_get_remove_ne elements new_el g hgn] at hgo
            rw [hP2 qmid (Or.inl rfl) g, if_neg hgn, Nat.add_zero]
            exact hmc2 g hgo
        have h7 : ∀ x ∈ popped2 ++ qmid, x = one ∨
            1 ≤ prodCount mul gens one popped2 qmid.head? gidx2 x := by
          intro x hx
          rw [hP2 qmid (Or.inl rfl) x]
          rw [hsame] at hx
          rcases hmem x hx with h1 | h1
          · exact Or.inl h1
          · right
            omega
        by_cases hc0 : c = 0
        · have hP0 : prodCount mul gens one popped (some el) gidx new_el = 0 := by
            rw [← hcP, hc0]
          have hnotyield : new_el ∉ yielded := by
            intro hin
            have h1 := (hyiff new_el).mp hin
            rw [hP0] at h1
            omega
          have hrep : decide (c = 0) = true := decide_eq_true hc0
          rw [hrep]
          have h5 : (yielded ++ [new_el]).Nodup := by
            refine List.Nodup.append hynd (List.nodup_singleton _) ?_
            intro a ha hb
            rw [List.mem_singleton] at hb
            subst hb
            exact hnotyield ha
          have h6 : ∀ g : T, g ∈ yielded ++ [new_el] ↔
              1 ≤ prodCount mul gens one popped2 qmid.head? gidx2 g := by
            intro g
            rw [hP2 qmid (Or.inl rfl) g, List.mem_append, List.mem_singleton]
            by_cases hgn : new_el = g
            · subst hgn
              rw [if_pos rfl, hP0]
              simp
            · rw [if_neg hgn, Nat.add_zero]
              constructor
              · rintro (h | h)
                · exact (hyiff g).mp h
                · exact absurd h.symm hgn
              · intro h
                exact Or.inl ((hyiff g).mpr h)
          exact ⟨rfl, hgidx2, h3, hqnd2, h5, h6, h7, h8, h9⟩
        · have hrep : decide (c = 0) = false := decide_eq_false hc0
          rw [hrep]
          have h5 : (yielded ++ ([] : List T)).Nodup := by
            rw [List.append_nil]
            exact hynd
          have h6 : ∀ g : T, g ∈ yielded ++ ([] : List T) ↔
              1 ≤ prodCount mul gens one popped2 qmid.head? gidx2 g := by
            intro g
            rw [List.append_nil, hP2 qmid (Or.inl rfl) g]
            by_cases hgn : new_el = g
            · subst hgn
              rw [if_pos rfl]
              constructor
              · intro _
                omega
              · intro _
                apply (hyiff new_el).mpr
                omega
            · rw [if_neg hgn, Nat.add_zero]
              exact hyiff g
          exact ⟨rfl, hgidx2, h3, hqnd2, h5, h6, h7, h8, h9⟩

theorem ginv_step {T : Type} [DecidableEq T] (mul : T → T → T) (gens : List T)
    (one : T) (hlen : 0 < gens.length)
    (hcancel : ∀ a b c : T, mul a c = mul b c → a = b)
    (popped yielded : List T) (s : GenIterState T)
    (hinv : ginv mul gens one popped yielded s)
    (s2 : GenIterState T) (out : Option T)
    (hstep : gi_try_next mul s = some (s2, out)) :
    ∃ popped2 : List T, ginv mul gens one popped2 (yielded ++ out.toList) s2 := by
  obtain ⟨hgens, hgidx, hknd, hqnd, hynd, hyiff, hmem, hmc1, hmc2⟩ := hinv
  rcases hq : s.queue with _ | ⟨el, qrest⟩
  · rw [gi_try_next_nil mul s hq] at hstep
    exact absurd hstep (by simp)
  · rw [gi_try_next_cons mul s el qrest hq] at hstep
    injection hstep with hpair
    injection hpair with hs2 hout
    subst hs2
    subst hout
    rw [hq] at hqnd hyiff hmem hmc1 hmc2
    simp only [List.head?_cons] at hyiff hmem hmc1 hmc2
    rw [hgens, hq]
    have hbridge : gens.getD s.gen_idx el = gens.getD s.gen_idx one :=
      getD_eq_getD_of_lt gens s.gen_idx el one hgidx
    rw [hbridge]
    have htl : ∀ (b : Bool) (x : T),
        (if b then some x else none).toList = (if b then [x] else []) := by
      intro b x
      cases b
      · rfl
      · rfl
    rw [htl]
    by_cases hpop : s.gen_idx + 1 = gens.length
    · rw [if_pos hpop, if_pos hpop]
      refine ⟨popped ++ [el], ?_⟩
      refine ginv_assemble mul gens one hlen hcancel popped yielded s.elements el
        qrest s.gen_idx (mul el (gens.getD s.gen_idx one)) (popped ++ [el]) qrest
        0 hlen hknd hqnd hynd hyiff hmem hmc1 hmc2 ?_ ?_
      · rw [List.append_assoc]
        rfl
      · intro queue2 _ g
        rw [prodCount_pop_step mul gens one popped el hlen queue2.head? g]
        have h1 : gens.length - 1 = s.gen_idx := by omega
        rw [h1]
    · rw [if_neg hpop, if_neg hpop]
      refine ⟨popped, ?_⟩
      refine ginv_assemble mul gens one hlen hcancel popped yielded s.elements el
        qrest s.gen_idx (mul el (gens.getD s.gen_idx one)) popped (el :: qrest)
        (s.gen_idx + 1) (by omega) hknd hqnd hynd hyiff hmem hmc1 hmc2 rfl ?_
      intro queue2 hq2 g
      have hhead : queue2.head? = some el := by
        rcases hq2 with rfl | rfl
        · rfl
        · rfl
      rw [hhead]
      exact prodCount_nopop_step mul gens one popped el s.gen_idx hgidx g

theorem gi_run_succ_none {T : Type} [DecidableEq T] (mul : T → T → T)
    (s : GenIterState T) (fuel : Nat) (h : gi_try_next mul s = none) :
    gi_run mul (fuel + 1) s = [] := by
  show (match gi_try_next mul s with
    | none => []
    | some (s2, none) => gi_run mul fuel s2
    | some (s2, some el) => el :: gi_run mul fuel s2) = []
  rw [h]

theorem gi_run_succ_repeat {T : Type} [DecidableEq T] (mul : T → T → T)
    (s : GenIterState T) (fuel : Nat) (s2 : GenIterState T)
    (h : gi_try_next mul s = some (s2, none)) :
    gi_run mul (fuel + 1) s = gi_run mul fuel s2 := by
  show (match gi_try_next mul s with
    | none => []
    | some (s2, none) => gi_run mul fuel s2
    | some (s2, some el) => el :: gi_run mul fuel s2) = gi_run mul fuel s2
  rw [h]

theorem gi_run_succ_new {T : Type} [DecidableEq T] (mul : T → T → T)
    (s : GenIterState T) (fuel : Nat) (s2 : GenIterState T) (el : T)
    (h : gi_try_next mul s = some (s2, some el)) :
    gi_run mul (fuel + 1) s = el :: gi_run mul fuel s2 := by
  show (match gi_try_next mul s with
    | none => []
    | some (s2, none) => gi_run mul fuel s2
    | some (s2, some el) => el :: gi_run mul fuel s2) = el :: gi_run mul fuel s2
  rw [h]

theorem gi_run_nodup_aux {T : Type} [DecidableEq T] (mul : T → T → T)
    (gens : List T) (one : T) (hlen : 0 < gens.length)
    (hcancel : ∀ a b c : T, mul a c = mul b c → a = b) :
    ∀ (fuel : Nat) (s : GenIterState T) (popped yielded : List T),
      ginv mul gens one popped yielded s →
      (yielded ++ gi_run mul fuel s).Nodup := by
  intro fuel
  induction fuel with
  | zero =>
      intro s popped yielded hinv
      show (yielded ++ []).Nodup
      rw [List.append_nil]
      exact hinv.2.2.2.2.1
  | succ fuel ih =>
      intro s popped yielded hinv
      cases hstep : gi_try_next mul s with
      | none =>
          rw [gi_run_succ_none mul s fuel hstep, List.append_nil]
          exact hinv.2.2.2.2.1
      | some pr =>
          obtain ⟨s2, out⟩ := pr
          obtain ⟨popped2, hinv2⟩ :=
            ginv_step mul gens one hlen hcancel popped yielded s hinv s2 out hstep
          have h2 := ih s2 popped2 (yielded ++ out.toList) hinv2
          cases out with
          | none =>
              rw [gi_run_succ_repeat mul s fuel s2 hstep]
              simpa using h2
          | some el2 =>
              rw [gi_run_succ_new mul s fuel s2 el2 hstep]
              rw [List.append_assoc] at h2
              simpa using h2

/-- C10: the group iterator never yields duplicate elements.  Running the
shallow embedding of `GenIter` (identity seeded with count zero, exactly as
in `GenIter::new`) for any number of `Iterator::next` steps produces a list
of yielded elements with no duplicates, for any generator list with at
least one generator and any right-cancellative multiplication (both hold
for the orthogonal-matrix groups the iterator is used with). -/
theorem gen_iter_no_duplicates {T : Type} [DecidableEq T] (mul : T → T → T)
    (gens : List T) (one : T) (fuel : Nat) (hlen : 0 < gens.length)
    (hcancel : ∀ a b c : T, mul a c = mul b c → a = b) :
    (gi_run mul fuel (gi_new gens one)).Nodup := by
  have h := gi_run_nodup_aux mul gens one hlen hcancel fuel (gi_new gens one)
    [] [] (ginv_init mul gens one hlen)
  simpa using h

/-- Witness for C10 at the cyclic group of order 2: one generator, six
iterator steps, no duplicate among the yielded elements. -/
theorem gen_iter_no_duplicates_witness :
    0 < ([(1 : Fin 2)] : List (Fin 2)).length ∧
    (gi_run (fun a b : Fin 2 => a + b) 6 (gi_new [(1 : Fin 2)] 0)).Nodup :=
  ⟨by decide, gen_iter_no_duplicates (fun a b : Fin 2 => a + b) [(1 : Fin 2)] 0 6
    (by decide) (by decide)⟩
